import Mathlib

/-!
# Verification of the web-analyzer plugin's cache, dispatcher and URL normalizer

This file gives a shallow embedding of the plugin's code:

* `src/cache.py` — `CacheManager` (in-memory dict backed by on-disk JSON
  primary files plus binary screenshot side-files);
* `src/main.py` — `WebAnalyzerPlugin._batch_process_urls` (in-flight
  dedup, priority ordering, windowed concurrency);
* `src/analyzer.py` — `WebAnalyzer.normalize_url` together with the parts
  of CPython's `urllib.parse` (`urlsplit`, `urlparse`, `urlunparse`) and
  `ipaddress.ip_address` that it calls.

Python dicts are modelled as insertion-ordered association lists with
unique keys, machine text as `List Char`/`String`, `time.time()` values as
`Int`, the file system as explicit lists of (path, mtime, content) records,
and raised exceptions as explicit error values threaded through each
operation (Python leaves already-performed mutations in place when an
exception propagates, and so do these models).  MD5 hex digests are
modelled as an injective encoding of the digested text (only determinism
and injectivity of the digest are relied upon by the code).
-/

/-! ## Python dict / set helpers (insertion-ordered association lists) -/

/-- `d.get(k)` on a Python dict: value of the (unique) entry with key `k`. -/
def alookup {α : Type} (l : List (String × α)) (k : String) : Option α :=
  (l.find? (fun e => e.1 == k)).map (·.2)

/-- `d[k] = v` on a Python dict: replace in place when present, else append. -/
def assoc_set {α : Type} (l : List (String × α)) (k : String) (v : α) :
    List (String × α) :=
  if (alookup l k).isSome then
    l.map (fun e => if e.1 == k then (k, v) else e)
  else
    l ++ [(k, v)]

/-- `d.pop(k, None)` / `del d[k]` on a Python dict: drop the entry with key `k`. -/
def assoc_drop {α : Type} (l : List (String × α)) (k : String) :
    List (String × α) :=
  l.filter (fun e => decide (e.1 ≠ k))

/-- `s.add(x)` on a Python set (membership is all that matters). -/
def pyset_add (s : List String) (x : String) : List String :=
  if x ∈ s then s else x :: s

/-- `if x in s: s.remove(x)` on a Python set. -/
def pyset_discard (s : List String) (x : String) : List String :=
  if x ∈ s then s.filter (fun v => decide (v ≠ x)) else s

/-! ## Stable sorting

Python's `list.sort` / `sorted` are stable.  A stable sort is uniquely
determined by the (total) boolean comparison, so the insertion sort below
is extensionally the sort the Python runtime performs:
`sorted(xs, key=f)` is `stableSortBy (fun a b => f a ≤ f b) xs` and
`sorted(xs, key=f, reverse=True)` is `stableSortBy (fun a b => f b ≤ f a) xs`. -/

/-- Insert `x` into `l`, before the first element `y` with `le x y`. -/
def insertLe {α : Type} (le : α → α → Bool) (x : α) : List α → List α
  | [] => [x]
  | y :: ys => if le x y then x :: y :: ys else y :: insertLe le x ys

/-- Stable insertion sort by a boolean comparison. -/
def stableSortBy {α : Type} (le : α → α → Bool) : List α → List α
  | [] => []
  | x :: xs => insertLe le x (stableSortBy le xs)

theorem insertLe_perm {α : Type} (le : α → α → Bool) (x : α) (l : List α) :
    (insertLe le x l).Perm (x :: l) := by
  induction l with
  | nil => simp [insertLe]
  | cons y ys ih =>
    simp only [insertLe]
    split
    · exact List.Perm.refl _
    · exact ((ih.cons y).trans (List.Perm.swap x y ys))

theorem stableSortBy_perm {α : Type} (le : α → α → Bool) (l : List α) :
    (stableSortBy le l).Perm l := by
  induction l with
  | nil => simp [stableSortBy]
  | cons x xs ih =>
    exact (insertLe_perm le x (stableSortBy le xs)).trans (ih.cons x)

theorem insertLe_sorted {α : Type} (le : α → α → Bool)
    (htot : ∀ a b, le a b = true ∨ le b a = true)
    (htrans : ∀ a b c, le a b = true → le b c = true → le a c = true)
    (x : α) (l : List α)
    (hl : l.Pairwise (fun a b => le a b = true)) :
    (insertLe le x l).Pairwise (fun a b => le a b = true) := by
  induction l with
  | nil => simp [insertLe]
  | cons y ys ih =>
    simp only [insertLe]
    rcases List.pairwise_cons.mp hl with ⟨hy, hys⟩
    split
    · rename_i hxy
      refine List.pairwise_cons.mpr ⟨?_, hl⟩
      intro b hb
      rcases List.mem_cons.mp hb with hb | hb
      · exact hb ▸ hxy
      · exact htrans x y b hxy (hy b hb)
    · rename_i hxy
      refine List.pairwise_cons.mpr ⟨?_, ih hys⟩
      intro b hb
      have hmem : b ∈ x :: ys := (insertLe_perm le x ys).mem_iff.mp hb
      rcases List.mem_cons.mp hmem with hb2 | hb2
      · rcases htot x y with h | h
        · exact absurd h (by simpa using hxy)
        · rw [hb2]; exact h
      · exact hy b hb2

theorem stableSortBy_sorted {α : Type} (le : α → α → Bool)
    (htot : ∀ a b, le a b = true ∨ le b a = true)
    (htrans : ∀ a b c, le a b = true → le b c = true → le a c = true)
    (l : List α) :
    (stableSortBy le l).Pairwise (fun a b => le a b = true) := by
  induction l with
  | nil => simp [stableSortBy]
  | cons x xs ih => exact insertLe_sorted le htot htrans x _ ih

/-! ## Data model of `src/cache.py`

A cached result is a Python dict from string field names to JSON-ish
values; `bytes` values (screenshots) are the one non-JSON-serializable
case the code handles. -/

/-- A value stored in a result dict: JSON scalars plus Python `bytes`. -/
inductive Value : Type where
  | str (s : String)
  | int (n : Int)
  | bool (b : Bool)
  | bytes (bs : List Nat)
deriving DecidableEq, Repr

/-- `isinstance(v, bytes)`. -/
def Value.isBytes : Value → Bool
  | .bytes _ => true
  | _ => false

/-- Python truthiness of a `Value` (used by `result.get("has_screenshot", False)`). -/
def Value.truthy : Value → Bool
  | .str s => s ≠ ""
  | .int n => n ≠ 0
  | .bool b => b
  | .bytes bs => bs ≠ []

/-- A `result` dict (insertion-ordered, unique keys). -/
abbrev ResultDict := List (String × Value)

/-- `json.dump` raises `TypeError` on any `bytes` value in the dict. -/
def jsonSafe (d : ResultDict) : Bool :=
  d.all (fun e => !e.2.isBytes)

/-- The schema of a primary cache file / memory-cache entry:
`{"url": ..., "timestamp": ..., "result": {...}}` (cache.py line 417). -/
structure CacheData : Type where
  url : String
  timestamp : Int
  result : ResultDict
deriving DecidableEq, Repr

/-- Content of a primary `.json` cache file: either well-formed JSON with
the `CacheData` schema, or bytes on which `json.load` raises. -/
inductive FileContent : Type where
  | json (cd : CacheData)
  | garbage
deriving DecidableEq, Repr

/-- A primary cache file on disk: modification time plus content. -/
structure PrimFile : Type where
  mtime : Int
  content : FileContent
deriving DecidableEq, Repr

/-- The cache directory: primary `<hash>.json` files and binary
`<hash>_screenshot.bin` side-files, each keyed by path. -/
structure Disk : Type where
  primaries : List (String × PrimFile)
  shots : List (String × List Nat)
deriving DecidableEq, Repr

/-- MD5 hex digest (`hashlib.md5(...).hexdigest()`), modelled as an
injective encoding of the digested text. -/
def md5hex (s : String) : String := s

/-- `_get_cache_file_path(url)` — the primary JSON file path for a URL. -/
def primaryPath (url : String) : String := md5hex url ++ ".json"

/-- `_get_cache_file_path(url, "screenshot")` — the side-file path. -/
def shotPath (url : String) : String := md5hex url ++ "_screenshot.bin"

/-- `open(path, "w")` + `json.dump` (or `"wb"` + `write`): create or
truncate, refreshing the mtime. -/
def Disk.writePrimary (d : Disk) (path : String) (now : Int)
    (c : FileContent) : Disk :=
  { d with primaries := assoc_set d.primaries path ⟨now, c⟩ }

def Disk.writeShot (d : Disk) (path : String) (bs : List Nat) : Disk :=
  { d with shots := assoc_set d.shots path bs }

/-- `if os.path.exists(path): os.remove(path)` for a primary file. -/
def Disk.removePrimary (d : Disk) (path : String) : Disk :=
  { d with primaries := assoc_drop d.primaries path }

def Disk.removeShot (d : Disk) (path : String) : Disk :=
  { d with shots := assoc_drop d.shots path }

/-- Errors raised by `cache.py` (`CacheReadError`, `CacheWriteError`). -/
inductive CacheError : Type where
  | readError
  | writeError
deriving DecidableEq, Repr

/-- The state of a `CacheManager` (cache.py lines 59-97): configuration,
the cache directory, `memory_cache`, `content_hash_map`, `preload_urls`. -/
structure CacheState : Type where
  disk : Disk
  max_size : Nat
  expire_time : Int
  preload_enabled : Bool
  preload_count : Nat
  memory_cache : List (String × CacheData)
  content_hash_map : List (String × String)
  preload_urls : List String
deriving DecidableEq, Repr

/-! ## CacheManager operations -/

/-- `CacheManager.delete` (cache.py lines 428-453): only when `url` is in
`memory_cache`, remove it from memory, remove both files from disk, drop
it from `preload_urls`, and scan-and-remove every `content_hash_map`
entry whose mapped URL is `url`. -/
def CacheManager.delete (s : CacheState) (url : String) : CacheState :=
  if (alookup s.memory_cache url).isSome then
    { s with
      memory_cache := assoc_drop s.memory_cache url,
      disk := (s.disk.removePrimary (primaryPath url)).removeShot (shotPath url),
      preload_urls := pyset_discard s.preload_urls url,
      content_hash_map := s.content_hash_map.filter (fun e => decide (e.2 ≠ url)) }
  else s

/-- `CacheManager.get` (cache.py lines 373-396): fresh hit returns the
stored result; an expired hit is deleted and `None` is returned; a miss
returns `None`.  The returned pair is (result, state after the call). -/
def CacheManager.get (s : CacheState) (now : Int) (url : String) :
    Option ResultDict × CacheState :=
  match alookup s.memory_cache url with
  | some cd =>
      if now - cd.timestamp < s.expire_time then (some cd.result, s)
      else (none, CacheManager.delete s url)
  | none => (none, s)

/-- `CacheManager._save_cache_to_disk` (cache.py lines 300-343).  When the
result holds screenshot bytes, the side-file is written first, then the
JSON copy with the bytes removed and `has_screenshot = True`; `json.dump`
raising on a remaining `bytes` value becomes a `CacheWriteError` *after*
the side-file write already happened. -/
def CacheManager.save_cache_to_disk (d : Disk) (now : Int) (url : String)
    (cd : CacheData) : Disk × Option CacheError :=
  match alookup cd.result "screenshot" with
  | some (.bytes bs) =>
      let d1 := d.writeShot (shotPath url) bs
      let r1 := assoc_set (assoc_drop cd.result "screenshot") "has_screenshot" (.bool true)
      if jsonSafe r1 then
        (d1.writePrimary (primaryPath url) now (.json { cd with result := r1 }), none)
      else (d1, some .writeError)
  | _ =>
      if jsonSafe cd.result then
        (d.writePrimary (primaryPath url) now (.json cd), none)
      else (d, some .writeError)

/-- `timestamp` of the memory-cache entry for a key
(`self.memory_cache[url].get("timestamp", 0)`). -/
def tsOfKey (m : List (String × CacheData)) (u : String) : Int :=
  match alookup m u with
  | some cd => cd.timestamp
  | none => 0

/-- Part (a) of `CacheManager._cleanup` (cache.py lines 495-504): collect
the keys of all expired entries, then delete each. -/
def CacheManager.cleanup_expired (s : CacheState) (now : Int) : CacheState :=
  let expired_urls :=
    (s.memory_cache.filter
      (fun e => decide (s.expire_time ≤ now - e.2.timestamp))).map (·.1)
  expired_urls.foldl CacheManager.delete s

/-- Part (b) of `CacheManager._cleanup` (cache.py lines 506-516): if the
count exceeds `max_size`, stable-sort the keys by timestamp ascending and
delete the first `len - max_size` of them. -/
def CacheManager.cleanup_evict (s : CacheState) : CacheState :=
  if s.max_size < s.memory_cache.length then
    let sorted_urls :=
      stableSortBy
        (fun a b => decide (tsOfKey s.memory_cache a ≤ tsOfKey s.memory_cache b))
        (s.memory_cache.map (·.1))
    (sorted_urls.take (s.memory_cache.length - s.max_size)).foldl
      CacheManager.delete s
  else s

/-- `CacheManager._cleanup` (cache.py lines 483-516). -/
def CacheManager.cleanup (s : CacheState) (now : Int) : CacheState :=
  CacheManager.cleanup_evict (CacheManager.cleanup_expired s now)

/-- `CacheManager.set` (cache.py lines 398-426): store in memory, persist
to disk, then run `_cleanup`.  If `_save_cache_to_disk` raises, the
exception propagates with the memory write already done and no cleanup. -/
def CacheManager.set (s : CacheState) (now : Int) (url : String)
    (result : ResultDict) : CacheState × Option CacheError :=
  let cd : CacheData := ⟨url, now, result⟩
  let s1 := { s with memory_cache := assoc_set s.memory_cache url cd }
  let saved := CacheManager.save_cache_to_disk s1.disk now url cd
  let s2 := { s1 with disk := saved.1 }
  match saved.2 with
  | some e => (s2, some e)
  | none => (CacheManager.cleanup s2 now, none)

/-- `CacheManager._calculate_content_hash` (cache.py lines 156-165). -/
def CacheManager.calculate_content_hash (content : String) : String :=
  md5hex content

/-- `CacheManager.set_with_content_hash` (cache.py lines 226-241): `set`,
then map the content hash to the URL.  If `set` raises, the mapping
assignment is never executed. -/
def CacheManager.set_with_content_hash (s : CacheState) (now : Int)
    (url : String) (result : ResultDict) (content : String) :
    CacheState × Option CacheError :=
  let h := CacheManager.calculate_content_hash content
  let r := CacheManager.set s now url result
  match r.2 with
  | some e => (r.1, some e)
  | none =>
      ({ r.1 with content_hash_map := assoc_set r.1.content_hash_map h url },
       none)

/-- `CacheManager.get_by_content_hash` (cache.py lines 206-224): look the
content hash up in `content_hash_map` and delegate to `get`. -/
def CacheManager.get_by_content_hash (s : CacheState) (now : Int)
    (content : String) : Option ResultDict × CacheState :=
  match alookup s.content_hash_map (CacheManager.calculate_content_hash content) with
  | some url => CacheManager.get s now url
  | none => (none, s)

/-! ## Disk loading (`_load_cache_from_disk`, `_preload_cache`, `__init__`) -/

/-- `CacheManager._get_sorted_cache_files` (cache.py lines 139-154): the
`.json` files of the cache directory, stable-sorted by mtime descending
(`reverse=True`). -/
def CacheManager.get_sorted_cache_files (d : Disk) : List String :=
  (stableSortBy (fun a b => decide (b.2.mtime ≤ a.2.mtime)) d.primaries).map (·.1)

/-- `CacheManager._load_screenshot_for_cache` (cache.py lines 271-287):
if the side-file exists, put its bytes under `"screenshot"` and pop the
`"has_screenshot"` marker. -/
def CacheManager.load_screenshot_for_cache (d : Disk) (url : String)
    (r : ResultDict) : ResultDict :=
  match alookup d.shots (shotPath url) with
  | some bs => assoc_drop (assoc_set r "screenshot" (.bytes bs)) "has_screenshot"
  | none => r

/-- `result.get("has_screenshot", False)` is truthy. -/
def hasScreenshotFlag (r : ResultDict) : Bool :=
  match alookup r "has_screenshot" with
  | some v => v.truthy
  | none => false

/-- `CacheManager._load_single_cache_file` (cache.py lines 243-269): load
one primary file into `memory_cache` (reinstating the screenshot bytes
when flagged); entries whose `url` field is falsy are skipped silently;
an unreadable/corrupt file is deleted (`_cleanup_corrupted_cache`) and a
`CacheReadError` is raised. -/
def CacheManager.load_single_cache_file (s : CacheState) (path : String) :
    CacheState × Option CacheError :=
  match alookup s.disk.primaries path with
  | some pf =>
      match pf.content with
      | .json cd =>
          if cd.url ≠ "" then
            let r :=
              if hasScreenshotFlag cd.result then
                CacheManager.load_screenshot_for_cache s.disk cd.url cd.result
              else cd.result
            ({ s with memory_cache :=
                assoc_set s.memory_cache cd.url { cd with result := r } }, none)
          else (s, none)
      | .garbage =>
          ({ s with disk := s.disk.removePrimary path }, some .readError)
  | none => ({ s with disk := s.disk.removePrimary path }, some .readError)

/-- The loop of `_load_cache_from_disk`: load files in order; the first
exception aborts the loop and is wrapped into a `CacheReadError`. -/
def CacheManager.load_files (s : CacheState) : List String →
    CacheState × Option CacheError
  | [] => (s, none)
  | f :: fs =>
      match CacheManager.load_single_cache_file s f with
      | (s1, none) => CacheManager.load_files s1 fs
      | (s1, some _) => (s1, some .readError)

/-- `CacheManager._load_cache_from_disk` (cache.py lines 117-137): load
the first `max_size` primary files in mtime-descending order. -/
def CacheManager.load_cache_from_disk (s : CacheState) :
    CacheState × Option CacheError :=
  CacheManager.load_files s
    ((CacheManager.get_sorted_cache_files s.disk).take s.max_size)

/-- The per-file body of `_preload_cache` (cache.py lines 182-200): like
`_load_single_cache_file` but additionally records the URL in
`preload_urls`, and a corrupt file is deleted and *swallowed* (the loop
continues). -/
def CacheManager.preload_one (s : CacheState) (path : String) : CacheState :=
  match alookup s.disk.primaries path with
  | some pf =>
      match pf.content with
      | .json cd =>
          if cd.url ≠ "" then
            let r :=
              if hasScreenshotFlag cd.result then
                CacheManager.load_screenshot_for_cache s.disk cd.url cd.result
              else cd.result
            { s with
              memory_cache :=
                assoc_set s.memory_cache cd.url { cd with result := r },
              preload_urls := pyset_add s.preload_urls cd.url }
          else s
      | .garbage => { s with disk := s.disk.removePrimary path }
  | none => { s with disk := s.disk.removePrimary path }

/-- `CacheManager._preload_cache` (cache.py lines 167-204): load the first
`preload_count` primary files in mtime-descending order, never raising. -/
def CacheManager.preload_cache (s : CacheState) : CacheState :=
  ((CacheManager.get_sorted_cache_files s.disk).take s.preload_count).foldl
    CacheManager.preload_one s

/-- `CacheManager.__init__` (cache.py lines 59-97) over a given cache
directory: build the empty state, always run `_load_cache_from_disk`
(whose `CacheReadError` propagates out of the constructor), then run
`_preload_cache` only when `preload_enabled`. -/
def CacheManager.init (d : Disk) (max_size : Nat) (expire_minutes : Int)
    (preload_enabled : Bool) (preload_count : Nat) :
    CacheState × Option CacheError :=
  let s0 : CacheState :=
    { disk := d, max_size := max_size, expire_time := expire_minutes * 60,
      preload_enabled := preload_enabled, preload_count := preload_count,
      memory_cache := [], content_hash_map := [], preload_urls := [] }
  match CacheManager.load_cache_from_disk s0 with
  | (s1, some e) => (s1, some e)
  | (s1, none) =>
      if preload_enabled then (CacheManager.preload_cache s1, none)
      else (s1, none)

/-! ## Data model of `WebAnalyzerPlugin._batch_process_urls` (main.py 1384-1470)

The pipeline (`_process_single_url`) is abstracted as a function from URL
to result; an exception raised inside the `try` block is modelled by the
`pipeline_raises` flag (the `finally` cleanup runs in both cases). -/

/-- The admission loop (main.py lines 1389-1397): walk `urls`, skipping
each URL already in `processing_urls` and adding the rest immediately.
Returns (`filtered_urls`, updated `processing_urls`). -/
def filterAdmit (inflight : List String) : List String →
    List String × List String
  | [] => ([], inflight)
  | u :: rest =>
      if u ∈ inflight then filterAdmit inflight rest
      else
        (u :: (filterAdmit (pyset_add inflight u) rest).1,
         (filterAdmit (pyset_add inflight u) rest).2)

/-- Concurrency selection (main.py lines 1421-1427): with dynamic
concurrency, `min(max_concurrency, max(1, int(n ** 0.5) + 1))`
(`int(n ** 0.5)` is the float square root truncated, which is `Nat.sqrt n`
for every list length a process can hold); otherwise `max_concurrency`. -/
def dispatch_concurrency (dynamic : Bool) (max_concurrency n : Nat) : Nat :=
  if dynamic then min max_concurrency (max 1 (Nat.sqrt n + 1))
  else max_concurrency

/-- The batched loop (main.py lines 1441-1446): slice `filtered_urls`
into consecutive `[i:i+batch_size]` windows, run the pipeline on each
window, and extend the result list in window order.  (For `bs = 0` Python
would raise `ValueError` from `range`; that branch is unreachable because
`max_concurrency` is clamped to `max(1, ...)` at main.py line 238.) -/
def processBatches {β : Type} (f : String → β) (bs : Nat) :
    List String → List β
  | [] => []
  | u :: rest =>
      ((u :: rest).take bs).map f ++ processBatches f bs (rest.drop (bs - 1))
termination_by l => l.length
decreasing_by
  simp only [List.length_cons, List.length_drop]
  omega

/-- The window dispatch (main.py lines 1431-1446): a single
`asyncio.gather` over everything when `batch_size >= len(filtered_urls)`,
otherwise the batched loop. -/
def batchProcessResults {β : Type} (f : String → β) (batch_size : Nat)
    (l : List String) : List β :=
  if l.length ≤ batch_size then l.map f else processBatches f batch_size l

/-- Outcome of one `_batch_process_urls` call: the collected analysis
results, the final `processing_urls` set, and whether the body raised. -/
structure DispatchResult (β : Type) : Type where
  results : List β
  inflight : List String
  raised : Bool

/-- `WebAnalyzerPlugin._batch_process_urls` (main.py lines 1384-1457):
admit URLs into `processing_urls`, return early when every URL was
already in flight, optionally stable-sort by priority descending, run
the windows (or raise), and in `finally` discard every admitted URL from
`processing_urls`. -/
def batchProcessUrls {β : Type} (inflight : List String) (urls : List String)
    (enable_priority : Bool) (prio : String → Int)
    (dynamic : Bool) (max_concurrency : Nat)
    (pipeline : String → β) (pipeline_raises : Bool) : DispatchResult β :=
  let fa := filterAdmit inflight urls
  if fa.1.isEmpty then ⟨[], fa.2, false⟩
  else
    let filtered_urls :=
      if enable_priority then
        stableSortBy (fun a b => decide (prio b ≤ prio a)) fa.1
      else fa.1
    let concurrency := dispatch_concurrency dynamic max_concurrency filtered_urls.length
    let results :=
      if pipeline_raises then []
      else batchProcessResults pipeline concurrency filtered_urls
    let final_inflight := filtered_urls.foldl pyset_discard fa.2
    ⟨results, final_inflight, pipeline_raises⟩

/-- Consecutive windows of size `c` (the specification's view of the
batched loop, defined independently of `processBatches`). -/
def windowsOf {α : Type} (c : Nat) : List α → List (List α)
  | [] => []
  | x :: rest => ((x :: rest).take c) :: windowsOf c (rest.drop (c - 1))
termination_by l => l.length
decreasing_by
  simp only [List.length_cons, List.length_drop]
  omega

/-! ## Data model of `WebAnalyzer.normalize_url` (analyzer.py 441-486)

`normalize_url` delegates to CPython's `urllib.parse.urlparse` /
`ParseResult.geturl` and `ipaddress.ip_address`, so those library
functions are embedded here over `List Char`.  Modelling notes:

* `str.lower` is modelled on the basic-latin range (`Char.toLower`);
  Unicode case mapping beyond ASCII is out of scope.
* The WHATWG control-character stripping some CPython patch levels apply
  at the start of `urlsplit`, the NFKC `_checknetloc` check (non-ASCII
  netlocs only) and the deep validation of bracketed IPv6 hosts are
  omitted: inputs are taken as already sanitized ASCII-ish text.  The
  bracket *mismatch* check, which raises `ValueError`, is modelled.
* `ipaddress.ip_address` is modelled as full IPv4 parsing (four decimal
  octets `0..255`, no leading zeros) plus IPv6 parsing per CPython's
  `_ip_int_from_string` (hextets of at most 4 hex digits, at most one
  `::`, optional embedded IPv4 tail); `%`-scope suffixes are not
  modelled. -/

abbrev Chars := List Char

/-- `s.lower()` (ASCII range). -/
def lowerC (l : Chars) : Chars := l.map Char.toLower

/-- Membership in `urllib.parse.scheme_chars`. -/
def schemeChar (c : Char) : Bool :=
  c.isAlpha || c.isDigit || c == '+' || c == '-' || c == '.'

/-- `s.split(c, 1)` when `c` occurs: the parts before and after the
*first* occurrence. -/
def splitAtFirst (c : Char) : Chars → Option (Chars × Chars)
  | [] => none
  | x :: xs =>
      if x == c then some ([], xs)
      else (splitAtFirst c xs).map (fun p => (x :: p.1, p.2))

/-- Split around the *last* occurrence of `c` (`s.rfind`). -/
def splitAtLast (c : Char) : Chars → Option (Chars × Chars)
  | [] => none
  | x :: xs =>
      match splitAtLast c xs with
      | some p => some (x :: p.1, p.2)
      | none => if x == c then some ([], xs) else none

/-- A character that does not delimit the netloc (`_splitnetloc` scans up
to the first of `/?#`). -/
def netlocChar (c : Char) : Bool := !(c == '/' || c == '?' || c == '#')

/-- Head-is-ASCII-alphabetic test (`url[0].isascii() and url[0].isalpha()`). -/
def headIsAlpha : Chars → Bool
  | [] => false
  | c :: _ => c.isAlpha

/-- The scheme-extraction step of `urlsplit`: if the text before the
first `:` is a nonempty run of scheme characters starting with a letter,
it is the scheme (lowercased); otherwise there is no scheme. -/
def splitScheme (l : Chars) : Chars × Chars :=
  match splitAtFirst ':' l with
  | none => ([], l)
  | some p =>
      if !p.1.isEmpty && headIsAlpha p.1 && p.1.all schemeChar then
        (lowerC p.1, p.2)
      else ([], l)

/-- The result of `urllib.parse.urlsplit`. -/
structure SplitR : Type where
  scheme : Chars
  netloc : Chars
  path : Chars
  query : Chars
  fragment : Chars
deriving DecidableEq, Repr

/-- `urllib.parse.urlsplit` (with `allow_fragments=True`): extract the
scheme, then the netloc after a leading `//` (up to the first `/?#`,
raising `ValueError` — `none` — on unbalanced brackets), then split off
the fragment at the first `#` and the query at the first `?`. -/
def urlsplit? (u : Chars) : Option SplitR :=
  let sp := splitScheme u
  let nl :=
    if sp.2.take 2 = ['/', '/'] then
      ((sp.2.drop 2).takeWhile netlocChar, (sp.2.drop 2).dropWhile netlocChar)
    else ([], sp.2)
  if (nl.1.contains '[' && !nl.1.contains ']') ||
     (nl.1.contains ']' && !nl.1.contains '[') then none
  else
    let fr := match splitAtFirst '#' nl.2 with
      | some p => p
      | none => (nl.2, [])
    let qr := match splitAtFirst '?' fr.1 with
      | some p => p
      | none => (fr.1, [])
    some ⟨sp.1, nl.1, qr.1, qr.2, fr.2⟩

/-- `urllib.parse.uses_params`. -/
def uses_params : List Chars :=
  [[], "ftp".toList, "hdl".toList, "prospero".toList, "http".toList,
   "imap".toList, "https".toList, "shttp".toList, "rtsp".toList,
   "rtspu".toList, "sip".toList, "sips".toList, "mms".toList,
   "sftp".toList, "tel".toList]

/-- `urllib.parse._splitparams` (only called when `;` occurs in `url`):
split at the first `;` at or after the last `/`. -/
def splitparams (url : Chars) : Chars × Chars :=
  if url.contains '/' then
    match splitAtLast '/' url with
    | some p =>
        match splitAtFirst ';' p.2 with
        | some q => (p.1 ++ '/' :: q.1, q.2)
        | none => (url, [])
    | none => (url, [])
  else
    match splitAtFirst ';' url with
    | some q => (q.1, q.2)
    | none => (url, [])

/-- The result of `urllib.parse.urlparse`. -/
structure ParseR : Type where
  scheme : Chars
  netloc : Chars
  path : Chars
  params : Chars
  query : Chars
  fragment : Chars
deriving DecidableEq, Repr

/-- `urllib.parse.urlparse`: `urlsplit`, then split the params off the
path when the scheme uses params and the path has a `;`. -/
def urlparse? (u : Chars) : Option ParseR :=
  (urlsplit? u).map (fun s =>
    if s.scheme ∈ uses_params ∧ s.path.contains ';' then
      let pp := splitparams s.path
      ⟨s.scheme, s.netloc, pp.1, pp.2, s.query, s.fragment⟩
    else ⟨s.scheme, s.netloc, s.path, [], s.query, s.fragment⟩)

/-- `urllib.parse.urlunsplit`. -/
def urlunsplit (scheme netloc url query fragment : Chars) : Chars :=
  let url1 :=
    if netloc ≠ [] ∨ (url ≠ [] ∧ url.take 2 = ['/', '/']) then
      '/' :: '/' ::
        (netloc ++ (if url ≠ [] ∧ url.take 1 ≠ ['/'] then '/' :: url else url))
    else url
  let url2 := if scheme ≠ [] then scheme ++ ':' :: url1 else url1
  let url3 := if query ≠ [] then url2 ++ '?' :: query else url2
  if fragment ≠ [] then url3 ++ '#' :: fragment else url3

/-- `urllib.parse.urlunparse` = `ParseResult.geturl`: glue the params
back onto the path with `;`, then `urlunsplit`. -/
def urlunparse (p : ParseR) : Chars :=
  urlunsplit p.scheme p.netloc
    (if p.params ≠ [] then p.path ++ ';' :: p.params else p.path)
    p.query p.fragment

/-- `s.split(c)` (all parts; a string with no separator is one part). -/
def splitOnChar (c : Char) : Chars → List Chars
  | [] => [[]]
  | x :: xs =>
      let r := splitOnChar c xs
      if x == c then [] :: r
      else
        match r with
        | [] => [[x]]
        | p :: ps => (x :: p) :: ps

/-- Decimal value of a digit string. -/
def charsToNat (l : Chars) : Nat := l.foldl (fun a c => a * 10 + (c.toNat - 48)) 0

/-- One IPv4 octet per CPython `ipaddress`: 1-3 decimal digits, value at
most 255, no leading zero. -/
def isIPv4Octet (l : Chars) : Bool :=
  !l.isEmpty && l.all Char.isDigit && decide (l.length ≤ 3) &&
  (decide (l.length = 1) || !(decide (l.take 1 = ['0']))) &&
  decide (charsToNat l ≤ 255)

/-- `ipaddress.IPv4Address` acceptance. -/
def isIPv4 (l : Chars) : Bool :=
  let parts := splitOnChar '.' l
  decide (parts.length = 4) && parts.all isIPv4Octet

/-- An ASCII hexadecimal digit. -/
def isHexChar (c : Char) : Bool :=
  c.isDigit || (decide ('a' ≤ c) && decide (c ≤ 'f')) ||
  (decide ('A' ≤ c) && decide (c ≤ 'F'))

/-- One IPv6 hextet: 1-4 hex digits. -/
def isHextet (l : Chars) : Bool :=
  !l.isEmpty && l.all isHexChar && decide (l.length ≤ 4)

/-- `ipaddress.IPv6Address` acceptance, per CPython
`_ip_int_from_string`: split on `:`; an embedded IPv4 tail counts as two
hextets; at most one `::` (an empty interior part); an empty first/last
part is only allowed right next to the `::`; without `::` exactly eight
hextets are required. -/
def isIPv6 (l : Chars) : Bool :=
  let parts0 := splitOnChar ':' l
  if decide (parts0.length < 3) then false
  else
    let embed : Option (List Chars) :=
      match parts0.getLast? with
      | some last =>
          if last.contains '.' then
            if isIPv4 last then some (parts0.dropLast ++ [['0'], ['0']])
            else none
          else some parts0
      | none => none
    match embed with
    | none => false
    | some parts =>
        let n := parts.length
        if decide (9 < n) then false
        else
          let interior := (parts.drop 1).dropLast
          let empties := interior.countP (fun p => p.isEmpty)
          if decide (2 ≤ empties) then false
          else if decide (empties = 1) then
            let skip_index := 1 + interior.findIdx (fun p => p.isEmpty)
            let parts_hi :=
              if (parts.headD []).isEmpty then skip_index - 1 else skip_index
            let parts_lo :=
              if (parts.getLastD []).isEmpty then n - skip_index - 2
              else n - skip_index - 1
            (!(parts.headD []).isEmpty || decide (parts_hi = 0)) &&
            (!(parts.getLastD []).isEmpty || decide (parts_lo = 0)) &&
            decide (parts_hi + parts_lo ≤ 7) &&
            ((parts.take parts_hi).all isHextet) &&
            ((parts.drop (n - parts_lo)).all isHextet)
          else
            decide (n = 8) && !(parts.headD []).isEmpty &&
            !(parts.getLastD []).isEmpty && parts.all isHextet

/-- `WebAnalyzer._is_ip_address` (analyzer.py lines 478-486):
`ipaddress.ip_address` tries IPv4 then IPv6. -/
def WebAnalyzer.is_ip_address (netloc : Chars) : Bool :=
  isIPv4 netloc || isIPv6 netloc

/-- `s.startswith(pre)`. -/
def startsWithC (pre l : Chars) : Bool := decide (l.take pre.length = pre)

/-- `pat in s` (substring test). -/
def hasSubC (pat : Chars) : Chars → Bool
  | [] => pat.isEmpty
  | x :: xs => startsWithC pat (x :: xs) || hasSubC pat xs

/-- `WebAnalyzer._normalize_netloc` (analyzer.py lines 468-476). -/
def WebAnalyzer.normalize_netloc (enable_unified_domain : Bool)
    (netloc : Chars) : Chars :=
  if !enable_unified_domain || netloc.isEmpty || !netloc.contains '.' then
    netloc
  else if startsWithC "www.".toList netloc || hasSubC ".www.".toList netloc then
    netloc
  else if WebAnalyzer.is_ip_address netloc then netloc
  else "www.".toList ++ netloc

/-- `path.rstrip("/")`. -/
def rstripSlash (l : Chars) : Chars :=
  (l.reverse.dropWhile (fun c => c == '/')).reverse

/-- `WebAnalyzer.normalize_url` (analyzer.py lines 441-466): parse,
lowercase the scheme, lowercase and unify the netloc, strip trailing
slashes from the path, and reassemble; any `ValueError` from parsing
returns the input unchanged. -/
def WebAnalyzer.normalize_url_chars (enable_unified_domain : Bool)
    (u : Chars) : Chars :=
  match urlparse? u with
  | none => u
  | some p =>
      urlunparse { p with
        scheme := lowerC p.scheme,
        netloc := WebAnalyzer.normalize_netloc enable_unified_domain (lowerC p.netloc),
        path := rstripSlash p.path }

/-- `normalize_url` on `String`s. -/
def WebAnalyzer.normalize_url (enable_unified_domain : Bool) (u : String) :
    String :=
  (WebAnalyzer.normalize_url_chars enable_unified_domain u.toList).asString

/-! ## Association-list lemmas -/

theorem alookup_mem {α : Type} {l : List (String × α)} {k : String} {v : α}
    (h : alookup l k = some v) : (k, v) ∈ l := by
  unfold alookup at h
  rcases Option.map_eq_some'.mp h with ⟨e, he, hev⟩
  have hk := List.find?_some he
  have hmem := List.mem_of_find?_eq_some he
  have : e.1 = k := by simpa using hk
  cases e
  simp_all

theorem alookup_eq_none {α : Type} {l : List (String × α)} {k : String} :
    alookup l k = none ↔ ∀ e ∈ l, e.1 ≠ k := by
  unfold alookup
  simp [List.find?_eq_none]

theorem alookup_assoc_drop_self {α : Type} (l : List (String × α)) (k : String) :
    alookup (assoc_drop l k) k = none := by
  rw [alookup_eq_none]
  intro e he
  have := List.mem_filter.mp he
  simpa using this.2

theorem assoc_drop_of_not_mem {α : Type} {l : List (String × α)} {k : String}
    (h : alookup l k = none) : assoc_drop l k = l := by
  unfold assoc_drop
  rw [List.filter_eq_self]
  intro e he
  simpa using alookup_eq_none.mp h e he

theorem find?_assoc_set_map {α : Type} (k : String) (v : α) :
    ∀ l : List (String × α), (∃ e ∈ l, e.1 = k) →
      List.find? (fun e => e.1 == k)
        (l.map (fun e => if e.1 == k then (k, v) else e)) = some (k, v)
  | [], h => by simp at h
  | f :: fs, h => by
      by_cases hf : f.1 = k
      · simp [List.find?_cons, hf]
      · have hfb : (f.1 == k) = false := by simpa using hf
        have hrest : ∃ e ∈ fs, e.1 = k := by
          rcases h with ⟨e, he, hek⟩
          rcases List.mem_cons.mp he with rfl | he2
          · exact absurd hek hf
          · exact ⟨e, he2, hek⟩
        simp only [List.map_cons, hfb, Bool.false_eq_true, if_false,
          List.find?_cons, hfb]
        exact find?_assoc_set_map k v fs hrest

theorem alookup_assoc_set_self {α : Type} (l : List (String × α)) (k : String)
    (v : α) : alookup (assoc_set l k v) k = some v := by
  unfold assoc_set
  split
  · rename_i h
    rcases Option.isSome_iff_exists.mp h with ⟨w, hw⟩
    have hmem : (k, w) ∈ l := alookup_mem hw
    have hf := find?_assoc_set_map k v l ⟨(k, w), hmem, rfl⟩
    unfold alookup
    rw [hf]
    rfl
  · rename_i h
    have hnone : List.find? (fun e => e.1 == k) l = none := by
      have h2 : alookup l k = none :=
        Option.not_isSome_iff_eq_none.mp (by simpa using h)
      unfold alookup at h2
      simpa using h2
    simp [alookup, List.find?_append, hnone]

theorem mem_assoc_set_same_key {α : Type} {l : List (String × α)}
    {k : String} {v w : α} (h : (k, v) ∈ assoc_set l k w) : v = w := by
  unfold assoc_set at h
  split at h
  · rcases List.mem_map.mp h with ⟨e, _, hev⟩
    by_cases he : e.1 = k
    · simp [he] at hev
      exact hev.symm
    · have hfb : (e.1 == k) = false := by simpa using he
      simp only [hfb, Bool.false_eq_true, if_false] at hev
      exact absurd (by rw [hev]) he
  · rename_i hn
    have hnone : alookup l k = none :=
      Option.not_isSome_iff_eq_none.mp (by simpa using hn)
    rcases List.mem_append.mp h with h2 | h2
    · exact absurd rfl (alookup_eq_none.mp hnone _ h2)
    · simpa using h2

theorem assoc_set_ne_nil {α : Type} (l : List (String × α)) (k : String)
    (v : α) : assoc_set l k v ≠ [] := by
  unfold assoc_set
  split
  · rename_i h
    intro hc
    rw [List.map_eq_nil_iff] at hc
    subst hc
    simp [alookup] at h
  · simp

/-! ## Properties of `CacheManager.delete` -/

theorem delete_memory_cache (s : CacheState) (url : String) :
    (CacheManager.delete s url).memory_cache = assoc_drop s.memory_cache url := by
  unfold CacheManager.delete
  split
  · rfl
  · rename_i h
    have hn : alookup s.memory_cache url = none :=
      Option.not_isSome_iff_eq_none.mp (by simpa using h)
    exact (assoc_drop_of_not_mem hn).symm

theorem delete_config (s : CacheState) (url : String) :
    (CacheManager.delete s url).max_size = s.max_size ∧
    (CacheManager.delete s url).expire_time = s.expire_time := by
  unfold CacheManager.delete
  split <;> exact ⟨rfl, rfl⟩

theorem alookup_delete_self (s : CacheState) (url : String) :
    alookup (CacheManager.delete s url).memory_cache url = none := by
  rw [delete_memory_cache]
  exact alookup_assoc_drop_self _ _

/-- C1: the TTL contract of `get`.  A present, fresh entry returns its
stored payload; a present, expired entry returns absent and is removed
from `memory_cache` by `delete`; a missing key returns absent without
touching the state; and `get` is some exactly on present fresh keys. -/
theorem claim_C1_get_ttl (s : CacheState) (now : Int) (url : String) :
    (∀ cd, alookup s.memory_cache url = some cd →
        (now - cd.timestamp < s.expire_time →
            CacheManager.get s now url = (some cd.result, s)) ∧
        (s.expire_time ≤ now - cd.timestamp →
            (CacheManager.get s now url).1 = none ∧
            alookup (CacheManager.get s now url).2.memory_cache url = none)) ∧
    (alookup s.memory_cache url = none →
        CacheManager.get s now url = (none, s)) ∧
    ((CacheManager.get s now url).1.isSome = true ↔
        ∃ cd, alookup s.memory_cache url = some cd ∧
          now - cd.timestamp < s.expire_time) := by
  refine ⟨?_, ?_, ?_⟩
  · intro cd hcd
    constructor
    · intro hfresh
      unfold CacheManager.get
      rw [hcd]
      simp [hfresh]
    · intro hexp
      unfold CacheManager.get
      rw [hcd]
      have hnf : ¬(now - cd.timestamp < s.expire_time) := by omega
      refine ⟨by simp [hnf], ?_⟩
      simp only [hnf, if_false]
      exact alookup_delete_self s url
  · intro hn
    unfold CacheManager.get
    rw [hn]
  · unfold CacheManager.get
    cases hcd : alookup s.memory_cache url with
    | none => simp
    | some cd =>
      by_cases hfresh : now - cd.timestamp < s.expire_time
      · simp only [hfresh, if_true]
        simp only [Option.isSome_some, true_iff]
        exact ⟨cd, rfl, hfresh⟩
      · simp only [hfresh, if_false]
        simp only [Option.isSome_none, Bool.false_eq_true, false_iff]
        rintro ⟨cd2, hsome, hf2⟩
        have hcc : cd = cd2 := by injection hsome
        rw [← hcc] at hf2
        exact hfresh hf2

/-- Concrete instance of C1 with `ttl_seconds = 60`: a hit at
`ttl - 1` succeeds, a hit at `ttl + 1` returns absent and removes the
entry. -/
def c1state : CacheState :=
  { disk := ⟨[], []⟩, max_size := 100, expire_time := 60,
    preload_enabled := false, preload_count := 20,
    memory_cache := [("u", ⟨"u", 0, [("title", Value.str "t")]⟩)],
    content_hash_map := [], preload_urls := [] }

theorem claim_C1_get_ttl_witness :
    (CacheManager.get c1state 59 "u").1 = some [("title", Value.str "t")] ∧
    (CacheManager.get c1state 61 "u").1 = none ∧
    alookup (CacheManager.get c1state 61 "u").2.memory_cache "u" = none := by
  have h := claim_C1_get_ttl c1state 61 "u"
  have h59 := claim_C1_get_ttl c1state 59 "u"
  refine ⟨?_, ?_, ?_⟩
  · have := (h59.1 ⟨"u", 0, [("title", Value.str "t")]⟩ (by decide)).1 (by decide)
    rw [this]
  · exact ((h.1 ⟨"u", 0, [("title", Value.str "t")]⟩ (by decide)).2 (by decide)).1
  · exact ((h.1 ⟨"u", 0, [("title", Value.str "t")]⟩ (by decide)).2 (by decide)).2

/-! ## Claim C5: delete and the content index -/

/-- A reachable state with `max_size = 0` (`max_size` is a plain
constructor argument of `CacheManager`). -/
def c5state : CacheState :=
  { disk := ⟨[], []⟩, max_size := 0, expire_time := 86400,
    preload_enabled := false, preload_count := 20,
    memory_cache := [], content_hash_map := [], preload_urls := [] }

/-- C5 counterexample: on a `max_size = 0` manager,
`set_with_content_hash(k, payload, c)` evicts `k` from `memory_cache`
right away (cleanup runs inside `set`) but still maps `c`'s hash to `k`
afterwards; `delete(k)` then hits the `if url in self.memory_cache`
guard (cache.py line 439), does nothing, and the content-index entry
mapping to `k` survives — so `delete` does *not* remove every
`content_index` entry pointing at the key. -/
theorem claim_C5_counterexample :
    alookup (CacheManager.set_with_content_hash c5state 0 "k"
        [("title", Value.str "t")] "c").1.memory_cache "k" = none ∧
    alookup (CacheManager.delete
        (CacheManager.set_with_content_hash c5state 0 "k"
          [("title", Value.str "t")] "c").1 "k").content_hash_map
      (CacheManager.calculate_content_hash "c") = some "k" := by
  constructor
  · rfl
  · rfl

theorem get_fst_none_of_absent (s : CacheState) (now : Int) (url : String)
    (h : alookup s.memory_cache url = none) :
    (CacheManager.get s now url).1 = none := by
  unfold CacheManager.get
  rw [h]

/-- C5 amended: `delete(key)` is a no-op when `key` is not in
`memory_cache`; when it is present, it removes the key from
`memory_cache`, removes both files from disk, removes the key from
`preload_urls` and removes every `content_index` entry mapping to the
key; and in either case, after a successful
`set_with_content_hash(k, payload, c)` followed by `delete(k)`, both
`get(k)` and `get_by_content_hash(c)` return absent. -/
theorem claim_C5_delete_amended (s : CacheState) (url : String) :
    (∀ cd, alookup s.memory_cache url = some cd →
        alookup (CacheManager.delete s url).memory_cache url = none ∧
        alookup (CacheManager.delete s url).disk.primaries (primaryPath url) = none ∧
        alookup (CacheManager.delete s url).disk.shots (shotPath url) = none ∧
        url ∉ (CacheManager.delete s url).preload_urls ∧
        (∀ h, alookup (CacheManager.delete s url).content_hash_map h ≠ some url)) ∧
    (alookup s.memory_cache url = none → CacheManager.delete s url = s) ∧
    (∀ now now2 result content,
        (CacheManager.set_with_content_hash s now url result content).2 = none →
        (CacheManager.get
            (CacheManager.delete
              (CacheManager.set_with_content_hash s now url result content).1 url)
            now2 url).1 = none ∧
        (CacheManager.get_by_content_hash
            (CacheManager.delete
              (CacheManager.set_with_content_hash s now url result content).1 url)
            now2 content).1 = none) := by
  refine ⟨?_, ?_, ?_⟩
  · intro cd hcd
    have hsome : (alookup s.memory_cache url).isSome = true := by
      rw [hcd]; rfl
    unfold CacheManager.delete
    simp only [hsome, if_true]
    refine ⟨alookup_assoc_drop_self _ _, alookup_assoc_drop_self _ _,
      alookup_assoc_drop_self _ _, ?_, ?_⟩
    · unfold pyset_discard
      split
      · intro hc
        have := List.mem_filter.mp hc
        simp at this
      · rename_i hnm
        exact hnm
    · intro h hc
      have hmem := alookup_mem hc
      have := (List.mem_filter.mp hmem).2
      simp at this
  · intro hn
    unfold CacheManager.delete
    have : (alookup s.memory_cache url).isSome = false := by rw [hn]; rfl
    simp [this]
  · intro now now2 result content hok
    set s1 := (CacheManager.set_with_content_hash s now url result content).1 with hs1
    have hget : alookup (CacheManager.delete s1 url).memory_cache url = none :=
      alookup_delete_self s1 url
    have hs1map : s1.content_hash_map =
        assoc_set (CacheManager.set s now url result).1.content_hash_map
          (CacheManager.calculate_content_hash content) url := by
      rw [hs1]
      simp only [CacheManager.set_with_content_hash]
      cases hr : (CacheManager.set s now url result).2 with
      | some e =>
          exfalso
          simp only [CacheManager.set_with_content_hash, hr] at hok
          simp at hok
      | none => simp only [hr]
    constructor
    · exact get_fst_none_of_absent _ now2 url hget
    · unfold CacheManager.get_by_content_hash
      split
      · rename_i url2 hh
        -- every content-index entry keyed by this hash maps to url
        have hmem2 : (CacheManager.calculate_content_hash content, url2) ∈
            s1.content_hash_map := by
          unfold CacheManager.delete at hh
          split at hh
          · exact (List.mem_filter.mp (alookup_mem hh)).1
          · exact alookup_mem hh
        rw [hs1map] at hmem2
        have hu : url2 = url := mem_assoc_set_same_key hmem2
        rw [hu]
        exact get_fst_none_of_absent _ now2 url hget
      · rfl

def c5wstate : CacheState :=
  { disk := ⟨[(primaryPath "k", ⟨0, .json ⟨"k", 0, []⟩⟩)], [(shotPath "k", [1])]⟩,
    max_size := 10, expire_time := 60, preload_enabled := false,
    preload_count := 20, memory_cache := [("k", ⟨"k", 0, []⟩)],
    content_hash_map := [("x", "k"), ("y", "other")], preload_urls := ["k"] }

theorem claim_C5_delete_amended_witness :
    alookup c5wstate.memory_cache "k" = some ⟨"k", 0, []⟩ ∧
    (alookup (CacheManager.delete c5wstate "k").memory_cache "k" = none ∧
     alookup (CacheManager.delete c5wstate "k").disk.primaries (primaryPath "k") = none ∧
     alookup (CacheManager.delete c5wstate "k").disk.shots (shotPath "k") = none ∧
     "k" ∉ (CacheManager.delete c5wstate "k").preload_urls ∧
     (∀ h, alookup (CacheManager.delete c5wstate "k").content_hash_map h ≠ some "k")) :=
  ⟨by decide, (claim_C5_delete_amended c5wstate "k").1 ⟨"k", 0, []⟩ (by decide)⟩

/-! ## Claim C4: corrupt primary files -/

/-- A cache directory holding one corrupt primary file. -/
def c4disk : Disk := ⟨[("bad.json", ⟨5, .garbage⟩)], []⟩

/-- C4 counterexample: constructing a `CacheManager` over a directory
with a corrupt primary file raises `CacheReadError` out of `__init__`
(`_load_single_cache_file` deletes the file but re-raises, and
`_load_cache_from_disk` wraps and re-raises, cache.py lines 134-137 and
264-269) — the corruption *is* fatal to the caller, contradicting the
claim that no exception escapes. -/
theorem claim_C4_counterexample :
    (CacheManager.init c4disk 100 1440 false 20).2 = some CacheError.readError := by
  rfl

/-- C4 amended: reading a corrupt primary file deletes it from disk and
adds nothing to `memory_cache` (the entry stays absent), but
`_load_single_cache_file` raises `CacheReadError`, which propagates out
of the startup disk load and hence out of the constructor; only the
preload path (`_preload_cache`) swallows the per-file error, likewise
deleting the corrupt file and loading nothing from it. -/
theorem claim_C4_corruption_amended (s : CacheState) (path : String)
    (mt : Int)
    (h : alookup s.disk.primaries path = some ⟨mt, FileContent.garbage⟩) :
    (CacheManager.load_single_cache_file s path).2 = some CacheError.readError ∧
    alookup (CacheManager.load_single_cache_file s path).1.disk.primaries path = none ∧
    (CacheManager.load_single_cache_file s path).1.memory_cache = s.memory_cache ∧
    alookup (CacheManager.preload_one s path).disk.primaries path = none ∧
    (CacheManager.preload_one s path).memory_cache = s.memory_cache := by
  unfold CacheManager.load_single_cache_file CacheManager.preload_one
  rw [h]
  exact ⟨rfl, alookup_assoc_drop_self _ _, rfl,
    alookup_assoc_drop_self _ _, rfl⟩

def c4wstate : CacheState :=
  { disk := c4disk, max_size := 100, expire_time := 86400,
    preload_enabled := false, preload_count := 20,
    memory_cache := [], content_hash_map := [], preload_urls := [] }

theorem claim_C4_corruption_amended_witness :
    alookup c4wstate.disk.primaries "bad.json" = some ⟨5, FileContent.garbage⟩ ∧
    ((CacheManager.load_single_cache_file c4wstate "bad.json").2 =
        some CacheError.readError ∧
     alookup (CacheManager.load_single_cache_file c4wstate "bad.json").1.disk.primaries
        "bad.json" = none ∧
     (CacheManager.load_single_cache_file c4wstate "bad.json").1.memory_cache =
        c4wstate.memory_cache ∧
     alookup (CacheManager.preload_one c4wstate "bad.json").disk.primaries
        "bad.json" = none ∧
     (CacheManager.preload_one c4wstate "bad.json").memory_cache =
        c4wstate.memory_cache) :=
  ⟨by decide, claim_C4_corruption_amended c4wstate "bad.json" 5 (by decide)⟩

/-! ## Claim C8: the window size -/

/-- C8: for a non-empty `to_process` list, dynamic concurrency uses
`min(max_concurrency, isqrt(len) + 1)` (the `max(1, ...)` clamp in
main.py line 1426 is redundant since `isqrt(len) + 1 >= 1`), and static
concurrency uses `max_concurrency`. -/
theorem claim_C8_concurrency (l : List String) (h : l ≠ []) (maxc : Nat) :
    dispatch_concurrency true maxc l.length =
      min maxc (Nat.sqrt l.length + 1) ∧
    dispatch_concurrency false maxc l.length = maxc := by
  constructor
  · unfold dispatch_concurrency
    rw [if_pos rfl, Nat.max_eq_right (Nat.succ_le_succ (Nat.zero_le _))]
  · rfl

theorem claim_C8_concurrency_witness :
    (["a", "b", "c", "d", "e"] : List String) ≠ [] ∧
    dispatch_concurrency true 3 (5 : Nat) = min 3 (Nat.sqrt 5 + 1) ∧
    dispatch_concurrency false 3 (5 : Nat) = 3 :=
  ⟨by decide, claim_C8_concurrency ["a", "b", "c", "d", "e"] (by decide) 3⟩

/-! ## Claim C3: the in-flight set -/

theorem mem_pyset_add (s : List String) (x u : String) :
    u ∈ pyset_add s x ↔ u = x ∨ u ∈ s := by
  unfold pyset_add
  split
  · rename_i h
    constructor
    · exact Or.inr
    · rintro (rfl | hu)
      · exact h
      · exact hu
  · simp [List.mem_cons]

theorem mem_pyset_discard (s : List String) (x u : String) :
    u ∈ pyset_discard s x ↔ u ∈ s ∧ u ≠ x := by
  unfold pyset_discard
  split
  · rename_i h
    simp [List.mem_filter]
  · rename_i h
    constructor
    · intro hu
      refine ⟨hu, ?_⟩
      rintro rfl
      exact h hu
    · exact And.left

theorem filterAdmit_spec (urls : List String) : ∀ inflight u,
    (u ∈ (filterAdmit inflight urls).1 ↔ u ∈ urls ∧ u ∉ inflight) ∧
    (u ∈ (filterAdmit inflight urls).2 ↔
      u ∈ inflight ∨ (u ∈ urls ∧ u ∉ inflight)) := by
  induction urls with
  | nil =>
    intro inflight u
    simp [filterAdmit]
  | cons w rest ih =>
    intro inflight u
    unfold filterAdmit
    split
    · rename_i hw
      have h := ih inflight u
      rw [h.1, h.2]
      simp only [List.mem_cons]
      constructor
      · constructor
        · tauto
        · rintro ⟨h1 | h1, h2⟩
          · rw [h1] at h2; exact absurd hw h2
          · exact ⟨h1, h2⟩
      · constructor
        · tauto
        · rintro (h1 | ⟨h1 | h1, h2⟩)
          · tauto
          · rw [h1] at h2; exact absurd hw h2
          · tauto
    · rename_i hw
      have h := ih (pyset_add inflight w) u
      have hpa : u ∈ pyset_add inflight w ↔ u = w ∨ u ∈ inflight :=
        mem_pyset_add inflight w u
      constructor
      · simp only [List.mem_cons]
        rw [h.1, hpa]
        constructor
        · rintro (h1 | ⟨h1, h2⟩)
          · exact ⟨Or.inl h1, h1 ▸ hw⟩
          · exact ⟨Or.inr h1, fun hc => h2 (Or.inr hc)⟩
        · rintro ⟨h1 | h1, h2⟩
          · exact Or.inl h1
          · by_cases huw : u = w
            · exact Or.inl huw
            · exact Or.inr ⟨h1, fun hc => (hc.elim huw h2)⟩
      · simp only [List.mem_cons]
        rw [h.2, hpa]
        constructor
        · rintro ((h1 | h1) | ⟨h1, h2⟩)
          · exact Or.inr ⟨Or.inl h1, h1 ▸ hw⟩
          · exact Or.inl h1
          · exact Or.inr ⟨Or.inr h1, fun hc => h2 (Or.inr hc)⟩
        · rintro (h1 | ⟨h1 | h1, h2⟩)
          · exact Or.inl (Or.inr h1)
          · exact Or.inl (Or.inl h1)
          · by_cases huw : u = w
            · exact Or.inl (Or.inl huw)
            · exact Or.inr ⟨h1, fun hc => (hc.elim huw h2)⟩

theorem mem_foldl_pyset_discard (us : List String) : ∀ s u,
    u ∈ us.foldl pyset_discard s ↔ u ∈ s ∧ u ∉ us := by
  induction us with
  | nil => intro s u; simp
  | cons w rest ih =>
    intro s u
    rw [List.foldl_cons, ih, mem_pyset_discard]
    simp only [List.mem_cons, not_or]
    constructor
    · rintro ⟨⟨h1, h2⟩, h3⟩
      exact ⟨h1, h2, h3⟩
    · rintro ⟨h1, h2, h3⟩
      exact ⟨⟨h1, h2⟩, h3⟩

theorem stableSortBy_mem {α : Type} (le : α → α → Bool) (l : List α) (x : α) :
    x ∈ stableSortBy le l ↔ x ∈ l :=
  (stableSortBy_perm le l).mem_iff

/-- C3: the in-flight discipline of `_batch_process_urls`.  The admitted
`to_process` list is exactly the URLs not already in flight; admission
happens in the synchronous prefix, so the set the processing phase sees
is the initial in-flight set plus the admitted batch; and whether or not
the pipeline raises (`pipeline_raises` arbitrary), the final in-flight
set has exactly the initial membership, so no admitted URL of the batch
stays in flight. -/
theorem claim_C3_inflight_cleanup {β : Type} (inflight urls : List String)
    (ep : Bool) (prio : String → Int) (dyn : Bool) (maxc : Nat)
    (pipeline : String → β) (praises : Bool) :
    (∀ u, u ∈ (filterAdmit inflight urls).1 ↔ u ∈ urls ∧ u ∉ inflight) ∧
    (∀ u, u ∈ (filterAdmit inflight urls).2 ↔
        u ∈ inflight ∨ u ∈ (filterAdmit inflight urls).1) ∧
    (∀ u, u ∈ (batchProcessUrls inflight urls ep prio dyn maxc
        pipeline praises).inflight ↔ u ∈ inflight) ∧
    (∀ u, u ∈ urls → u ∉ inflight →
        u ∉ (batchProcessUrls inflight urls ep prio dyn maxc
          pipeline praises).inflight) := by
  have hspec := filterAdmit_spec urls inflight
  have hfinal : ∀ u, u ∈ (batchProcessUrls inflight urls ep prio dyn maxc
      pipeline praises).inflight ↔ u ∈ inflight := by
    intro u
    simp only [batchProcessUrls]
    by_cases hempty : (filterAdmit inflight urls).1.isEmpty = true
    · rw [if_pos hempty]
      dsimp only
      have hnil : (filterAdmit inflight urls).1 = [] :=
        List.isEmpty_iff.mp hempty
      rw [(hspec u).2]
      constructor
      · rintro (h1 | ⟨h1, h2⟩)
        · exact h1
        · exact absurd ((hspec u).1.mpr ⟨h1, h2⟩) (by rw [hnil]; simp)
      · exact Or.inl
    · rw [if_neg hempty]
      dsimp only
      rw [mem_foldl_pyset_discard, (hspec u).2]
      have hmemsort : ∀ v, v ∈ (if ep = true then
          stableSortBy (fun a b => decide (prio b ≤ prio a))
            (filterAdmit inflight urls).1
        else (filterAdmit inflight urls).1) ↔
          v ∈ (filterAdmit inflight urls).1 := by
        intro v
        split
        · exact stableSortBy_mem _ _ v
        · exact Iff.rfl
      rw [hmemsort u]
      constructor
      · rintro ⟨h1 | ⟨h1, h2⟩, h3⟩
        · exact h1
        · exact absurd ((hspec u).1.mpr ⟨h1, h2⟩) h3
      · intro h1
        refine ⟨Or.inl h1, fun hc => ?_⟩
        exact ((hspec u).1.mp hc).2 h1
  refine ⟨fun u => (filterAdmit_spec urls inflight u).1, ?_, hfinal, ?_⟩
  · intro u
    rw [(hspec u).2, (hspec u).1]
  · intro u hu hni
    rw [hfinal u]
    exact hni

theorem claim_C3_inflight_cleanup_witness :
    (∀ u, u ∈ (batchProcessUrls ["http://b.com"]
        ["http://a.com", "http://b.com", "http://a.com"]
        false (fun _ => 0) true 5 (fun u => u) true).inflight ↔
      u ∈ ["http://b.com"]) ∧
    "http://a.com" ∉ (batchProcessUrls ["http://b.com"]
        ["http://a.com", "http://b.com", "http://a.com"]
        false (fun _ => 0) true 5 (fun u => u) true).inflight :=
  ⟨(claim_C3_inflight_cleanup ["http://b.com"]
      ["http://a.com", "http://b.com", "http://a.com"]
      false (fun _ => 0) true 5 (fun u => u) true).2.2.1,
   (claim_C3_inflight_cleanup ["http://b.com"]
      ["http://a.com", "http://b.com", "http://a.com"]
      false (fun _ => 0) true 5 (fun u => u) true).2.2.2 "http://a.com"
      (by decide) (by decide)⟩

/-! ## Claim C7: windowed processing -/

theorem processBatches_eq_join_windows {β : Type} (f : String → β) (c : Nat) :
    ∀ l : List String,
      processBatches f c l = ((windowsOf c l).map (List.map f)).flatten := by
  have H : ∀ n (l : List String), l.length ≤ n →
      processBatches f c l = ((windowsOf c l).map (List.map f)).flatten := by
    intro n
    induction n with
    | zero =>
      intro l hl
      have : l = [] := List.eq_nil_of_length_eq_zero (Nat.le_zero.mp hl)
      subst this
      simp [processBatches, windowsOf]
    | succ n ih =>
      intro l hl
      match l with
      | [] => simp [processBatches, windowsOf]
      | x :: xs =>
        rw [processBatches, windowsOf]
        simp only [List.map_cons, List.flatten_cons]
        rw [ih (xs.drop (c - 1))]
        simp only [List.length_cons] at hl
        calc (xs.drop (c - 1)).length ≤ xs.length := by
              rw [List.length_drop]; omega
          _ ≤ n := by omega
  exact fun l => H l.length l (Nat.le_refl _)

theorem windowsOf_flatten {α : Type} (c : Nat) (hc : 0 < c) :
    ∀ l : List α, (windowsOf c l).flatten = l := by
  have H : ∀ n (l : List α), l.length ≤ n → (windowsOf c l).flatten = l := by
    intro n
    induction n with
    | zero =>
      intro l hl
      have : l = [] := List.eq_nil_of_length_eq_zero (Nat.le_zero.mp hl)
      subst this
      simp [windowsOf]
    | succ n ih =>
      intro l hl
      match l with
      | [] => simp [windowsOf]
      | x :: xs =>
        rw [windowsOf]
        simp only [List.flatten_cons]
        rw [ih (xs.drop (c - 1)) (by
          simp only [List.length_cons] at hl
          rw [List.length_drop]; omega)]
        have hdrop : (x :: xs).drop c = xs.drop (c - 1) := by
          cases c with
          | zero => omega
          | succ m => simp
        rw [← hdrop, List.take_append_drop]
  exact fun l => H l.length l (Nat.le_refl _)

theorem windowsOf_single {α : Type} (c : Nat) (l : List α) (hc : 0 < c)
    (hlen : l.length ≤ c) (hne : l ≠ []) : windowsOf c l = [l] := by
  match l with
  | [] => exact absurd rfl hne
  | x :: xs =>
    rw [windowsOf]
    have h1 : (x :: xs).take c = x :: xs :=
      List.take_of_length_le hlen
    have h2 : xs.drop (c - 1) = [] := by
      apply List.drop_eq_nil_of_le
      simp only [List.length_cons] at hlen
      omega
    rw [h1, h2]
    simp [windowsOf]

/-- C7: dispatch processes `to_process` in consecutive windows of size
`concurrency`, appending window results in window order (the flattened
windows, in order, are exactly the pipeline applied to `to_process`);
when `concurrency >= len(to_process)` everything is one single window
(`asyncio.gather` over all URLs, main.py lines 1436-1438); and a batch
whose URLs are all already in flight yields no results and no pipeline
invocation (`to_process` is empty and the dispatcher returns before the
processing phase, main.py lines 1399-1401). -/
theorem claim_C7_window_dispatch {β : Type} (f : String → β) (c : Nat)
    (hc : 0 < c) (l : List String) (inflight urls : List String) (ep : Bool)
    (prio : String → Int) (dyn : Bool) (maxc : Nat) (praises : Bool) :
    batchProcessResults f c l = ((windowsOf c l).map (List.map f)).flatten ∧
    (windowsOf c l).flatten = l ∧
    (l.length ≤ c → batchProcessResults f c l = l.map f) ∧
    ((filterAdmit inflight urls).1 = [] →
      (batchProcessUrls inflight urls ep prio dyn maxc f praises).results = [] ∧
      (batchProcessUrls inflight urls ep prio dyn maxc f praises).inflight =
        (filterAdmit inflight urls).2) := by
  refine ⟨?_, windowsOf_flatten c hc l, ?_, ?_⟩
  · unfold batchProcessResults
    split
    · rename_i hlen
      match l with
      | [] => simp [windowsOf]
      | x :: xs =>
        rw [windowsOf_single c (x :: xs) hc hlen (by simp)]
        simp
    · exact processBatches_eq_join_windows f c l
  · intro hlen
    unfold batchProcessResults
    rw [if_pos hlen]
  · intro hnil
    have hempty : (filterAdmit inflight urls).1.isEmpty = true := by
      rw [hnil]; rfl
    unfold batchProcessUrls
    rw [if_pos hempty]
    exact ⟨rfl, rfl⟩

theorem claim_C7_window_dispatch_witness :
    (0 : Nat) < 2 ∧
    batchProcessResults String.length 2 ["aa", "b", "ccc", "dd", "e"] =
      ((windowsOf 2 ["aa", "b", "ccc", "dd", "e"]).map
        (List.map String.length)).flatten ∧
    (windowsOf 2 ["aa", "b", "ccc", "dd", "e"]).flatten =
      ["aa", "b", "ccc", "dd", "e"] ∧
    ((filterAdmit ["u"] ["u", "u"]).1 = [] →
      (batchProcessUrls ["u"] ["u", "u"] false (fun _ => 0) false 2
        String.length false).results = [] ∧
      (batchProcessUrls ["u"] ["u", "u"] false (fun _ => 0) false 2
        String.length false).inflight = (filterAdmit ["u"] ["u", "u"]).2) := by
  have h := claim_C7_window_dispatch String.length 2 (by decide)
    ["aa", "b", "ccc", "dd", "e"] ["u"] ["u", "u"] false (fun _ => 0) false 2
    false
  exact ⟨by decide, h.1, h.2.1, h.2.2.2⟩

/-! ## Claim C2: capacity and eviction order -/

theorem foldl_delete_memory (us : List String) : ∀ s : CacheState,
    (us.foldl CacheManager.delete s).memory_cache =
      s.memory_cache.filter (fun e => decide (e.1 ∉ us)) := by
  induction us with
  | nil =>
    intro s
    simp
  | cons u rest ih =>
    intro s
    rw [List.foldl_cons, ih, delete_memory_cache]
    unfold assoc_drop
    rw [List.filter_filter]
    apply List.filter_congr
    intro e he
    by_cases h1 : e.1 = u <;> by_cases h2 : e.1 ∈ rest <;> simp [h1, h2]

theorem foldl_delete_config (us : List String) : ∀ s : CacheState,
    (us.foldl CacheManager.delete s).max_size = s.max_size ∧
    (us.foldl CacheManager.delete s).expire_time = s.expire_time := by
  induction us with
  | nil => intro s; exact ⟨rfl, rfl⟩
  | cons u rest ih =>
    intro s
    rw [List.foldl_cons]
    have h1 := ih (CacheManager.delete s u)
    have h2 := delete_config s u
    exact ⟨h1.1.trans h2.1, h1.2.trans h2.2⟩

theorem alookup_of_mem_nodup {α : Type} {l : List (String × α)}
    (hnd : (l.map Prod.fst).Nodup) {e : String × α} (he : e ∈ l) :
    alookup l e.1 = some e.2 := by
  induction l with
  | nil => simp at he
  | cons f fs ih =>
    rcases List.mem_cons.mp he with rfl | he2
    · unfold alookup
      rw [List.find?_cons]
      simp
    · have hnd2 : (fs.map Prod.fst).Nodup := (List.nodup_cons.mp hnd).2
      have hne : f.1 ≠ e.1 := by
        intro hc
        exact (List.nodup_cons.mp hnd).1 (hc ▸ List.mem_map_of_mem Prod.fst he2)
      unfold alookup
      rw [List.find?_cons]
      have hb : (f.1 == e.1) = false := by simpa using hne
      simp only [hb]
      exact ih hnd2 he2

theorem tsOfKey_of_mem {m : List (String × CacheData)}
    (hnd : (m.map Prod.fst).Nodup) {e : String × CacheData} (he : e ∈ m) :
    tsOfKey m e.1 = e.2.timestamp := by
  unfold tsOfKey
  rw [alookup_of_mem_nodup hnd he]

theorem length_filter_ne_key {α : Type} : ∀ (l : List (String × α)) (k : String),
    (l.map Prod.fst).Nodup → k ∈ l.map Prod.fst →
    (l.filter (fun e => decide (e.1 ≠ k))).length + 1 = l.length := by
  intro l
  induction l with
  | nil =>
    intro k _ hk
    simp at hk
  | cons f fs ih =>
    intro k hnd hk
    by_cases hf : f.1 = k
    · rw [List.filter_cons]
      have hb : (decide (f.1 ≠ k)) = false := by simp [hf]
      simp only [hb, Bool.false_eq_true, if_false]
      have hfs : fs.filter (fun e => decide (e.1 ≠ k)) = fs := by
        apply List.filter_eq_self.mpr
        intro e he
        have : e.1 ≠ k := by
          intro hc
          exact (List.nodup_cons.mp hnd).1
            ((hf.trans hc.symm) ▸ List.mem_map_of_mem Prod.fst he)
        simpa using this
      rw [hfs]
      simp
    · rw [List.filter_cons]
      have hb : (decide (f.1 ≠ k)) = true := by simpa using hf
      simp only [hb, if_true]
      have hkfs : k ∈ fs.map Prod.fst := by
        rw [List.map_cons] at hk
        rcases List.mem_cons.mp hk with h | h
        · exact absurd h.symm hf
        · exact h
      have := ih k (List.nodup_cons.mp hnd).2 hkfs
      simp only [List.length_cons]
      omega

theorem length_filter_not_mem_keys {α : Type} :
    ∀ (S : List String) (l : List (String × α)),
    (l.map Prod.fst).Nodup → S.Nodup → (∀ k ∈ S, k ∈ l.map Prod.fst) →
    (l.filter (fun e => decide (e.1 ∉ S))).length + S.length = l.length := by
  intro S
  induction S with
  | nil =>
    intro l _ _ _
    simp
  | cons k S ih =>
    intro l hnd hS hsub
    have hsplit : l.filter (fun e => decide (e.1 ∉ k :: S)) =
        (l.filter (fun e => decide (e.1 ≠ k))).filter
          (fun e => decide (e.1 ∉ S)) := by
      rw [List.filter_filter]
      apply List.filter_congr
      intro e he
      by_cases h1 : e.1 = k <;> by_cases h2 : e.1 ∈ S <;> simp [h1, h2]
    rw [hsplit]
    have hnd2 : ((l.filter (fun e => decide (e.1 ≠ k))).map Prod.fst).Nodup :=
      (List.Sublist.map Prod.fst (List.filter_sublist l)).nodup hnd
    have hsub2 : ∀ j ∈ S,
        j ∈ (l.filter (fun e => decide (e.1 ≠ k))).map Prod.fst := by
      intro j hj
      rcases List.mem_map.mp (hsub j (List.mem_cons_of_mem k hj)) with ⟨e, he, hje⟩
      have hjk : j ≠ k := by
        intro hc
        exact (List.nodup_cons.mp hS).1 (hc ▸ hj)
      refine List.mem_map.mpr ⟨e, List.mem_filter.mpr ⟨he, ?_⟩, hje⟩
      simpa [hje] using hjk
    have hfin := ih _ hnd2 (List.nodup_cons.mp hS).2 hsub2
    have hlen := length_filter_ne_key l k hnd (hsub k (List.mem_cons_self k S))
    simp only [List.length_cons]
    omega

theorem cleanup_expired_memory (s : CacheState) (now : Int)
    (hnd : (s.memory_cache.map Prod.fst).Nodup) :
    (CacheManager.cleanup_expired s now).memory_cache =
      s.memory_cache.filter
        (fun e => decide (now - e.2.timestamp < s.expire_time)) := by
  unfold CacheManager.cleanup_expired
  rw [foldl_delete_memory]
  apply List.filter_congr
  intro e he
  have hiff : e.1 ∈ (s.memory_cache.filter
      (fun e2 => decide (s.expire_time ≤ now - e2.2.timestamp))).map Prod.fst ↔
      s.expire_time ≤ now - e.2.timestamp := by
    constructor
    · intro hmem
      rcases List.mem_map.mp hmem with ⟨e2, he2, hke⟩
      have he2f := List.mem_filter.mp he2
      have heq : e2 = e := List.inj_on_of_nodup_map hnd he2f.1 he hke
      have := he2f.2
      rw [heq] at this
      simpa using this
    · intro hexp
      exact List.mem_map.mpr ⟨e, List.mem_filter.mpr ⟨he, by simpa using hexp⟩, rfl⟩
  rw [decide_eq_decide]
  constructor
  · intro hnotin
    by_contra hlt
    exact hnotin (hiff.mpr (by omega))
  · intro hlt hin
    have := hiff.mp hin
    omega

theorem cleanup_expired_config (s : CacheState) (now : Int) :
    (CacheManager.cleanup_expired s now).max_size = s.max_size ∧
    (CacheManager.cleanup_expired s now).expire_time = s.expire_time := by
  unfold CacheManager.cleanup_expired
  exact foldl_delete_config _ s

theorem cleanup_evict_spec (s : CacheState)
    (hnd : (s.memory_cache.map Prod.fst).Nodup) :
    (CacheManager.cleanup_evict s).memory_cache.length =
      min s.memory_cache.length s.max_size ∧
    (∀ e ∈ s.memory_cache,
        e ∉ (CacheManager.cleanup_evict s).memory_cache →
        ∀ e2 ∈ (CacheManager.cleanup_evict s).memory_cache,
          e.2.timestamp ≤ e2.2.timestamp) ∧
    (∀ e ∈ (CacheManager.cleanup_evict s).memory_cache,
        e ∈ s.memory_cache) := by
  unfold CacheManager.cleanup_evict
  split
  · rename_i hgt
    rw [foldl_delete_memory]
    have hperm :
        (stableSortBy
          (fun a b => decide (tsOfKey s.memory_cache a ≤ tsOfKey s.memory_cache b))
          (s.memory_cache.map Prod.fst)).Perm (s.memory_cache.map Prod.fst) :=
      stableSortBy_perm _ _
    set le := fun a b => decide (tsOfKey s.memory_cache a ≤ tsOfKey s.memory_cache b)
      with hle
    set sorted := stableSortBy le (s.memory_cache.map Prod.fst) with hsorted_def
    set kc := s.memory_cache.length - s.max_size with hkc
    have hnd_sorted : sorted.Nodup := hperm.nodup_iff.mpr hnd
    have htaken_nd : (sorted.take kc).Nodup :=
      (List.take_sublist kc sorted).nodup hnd_sorted
    have htaken_sub : ∀ k ∈ sorted.take kc, k ∈ s.memory_cache.map Prod.fst :=
      fun k hk => hperm.mem_iff.mp ((List.take_subset kc sorted) hk)
    have hlen_sorted : sorted.length = s.memory_cache.length :=
      hperm.length_eq.trans (List.length_map _ _)
    have hlen_taken : (sorted.take kc).length = kc := by
      rw [List.length_take, hlen_sorted]
      omega
    have hcount := length_filter_not_mem_keys (sorted.take kc) s.memory_cache
      hnd htaken_nd htaken_sub
    refine ⟨?_, ?_, ?_⟩
    · rw [hlen_taken] at hcount
      omega
    · intro e he hnotin e2 he2
      have hkey_taken : e.1 ∈ sorted.take kc := by
        by_contra hc
        exact hnotin (List.mem_filter.mpr ⟨he, by simpa using hc⟩)
      have he2f := List.mem_filter.mp he2
      have hkey2_not : e2.1 ∉ sorted.take kc := by simpa using he2f.2
      have hkey2_sorted : e2.1 ∈ sorted :=
        hperm.mem_iff.mpr (List.mem_map_of_mem Prod.fst he2f.1)
      have hkey2_drop : e2.1 ∈ sorted.drop kc := by
        rcases List.mem_append.mp
          ((List.take_append_drop kc sorted).symm ▸ hkey2_sorted) with h | h
        · exact absurd h hkey2_not
        · exact h
      have hsorted_pw : sorted.Pairwise (fun a b => le a b = true) := by
        apply stableSortBy_sorted
        · intro a b
          rw [hle]
          simp only [decide_eq_true_eq]
          exact Int.le_total _ _
        · intro a b c hab hbc
          rw [hle] at hab hbc ⊢
          simp only [decide_eq_true_eq] at hab hbc ⊢
          omega
      have hcross := (List.pairwise_append.mp
        ((List.take_append_drop kc sorted).symm ▸ hsorted_pw)).2.2
      have hle_keys := hcross e.1 hkey_taken e2.1 hkey2_drop
      rw [hle] at hle_keys
      simp only [decide_eq_true_eq] at hle_keys
      rw [tsOfKey_of_mem hnd he, tsOfKey_of_mem hnd he2f.1] at hle_keys
      exact hle_keys
    · intro e he
      exact (List.mem_filter.mp he).1
  · rename_i hle2
    refine ⟨?_, ?_, fun e he => he⟩
    · have : s.memory_cache.length ≤ s.max_size := by omega
      omega
    · intro e he hnotin _ _
      exact absurd he hnotin

theorem assoc_set_keys_nodup {α : Type} (l : List (String × α)) (k : String)
    (v : α) (hnd : (l.map Prod.fst).Nodup) :
    ((assoc_set l k v).map Prod.fst).Nodup := by
  unfold assoc_set
  split
  · have hkeys : (l.map (fun e => if e.1 == k then (k, v) else e)).map Prod.fst =
        l.map Prod.fst := by
      rw [List.map_map]
      apply List.map_congr_left
      intro e he
      by_cases h : e.1 = k <;> simp [h]
    rw [hkeys]
    exact hnd
  · rename_i h
    have hnone : alookup l k = none :=
      Option.not_isSome_iff_eq_none.mp (by simpa using h)
    rw [List.map_append]
    simp only [List.map_cons, List.map_nil]
    rw [List.nodup_append]
    refine ⟨hnd, List.nodup_singleton k, ?_⟩
    intro a ha hb
    have hak : a = k := List.mem_singleton.mp hb
    rcases List.mem_map.mp ha with ⟨e, he, hek⟩
    exact alookup_eq_none.mp hnone e he (hek.trans hak)

/-- C2: capacity and eviction discipline of `set`/`_cleanup`.  After a
successful `set`, `memory_cache` holds at most `max_size` entries and
none of them is expired; `_cleanup`'s first phase removes exactly the
expired entries; its second phase keeps `min(len, max_size)` entries,
and any fresh entry it evicts has a timestamp no larger than every
survivor's (oldest-first by `created_at`). -/
theorem claim_C2_capacity_eviction (s : CacheState) (now : Int) (url : String)
    (r : ResultDict) (hnd : (s.memory_cache.map Prod.fst).Nodup)
    (hok : (CacheManager.set s now url r).2 = none) :
    (CacheManager.set s now url r).1.memory_cache.length ≤ s.max_size ∧
    (∀ e ∈ (CacheManager.set s now url r).1.memory_cache,
        now - e.2.timestamp < s.expire_time) ∧
    (∀ t : CacheState, (t.memory_cache.map Prod.fst).Nodup →
        (CacheManager.cleanup_expired t now).memory_cache =
          t.memory_cache.filter
            (fun e => decide (now - e.2.timestamp < t.expire_time))) ∧
    (∀ t : CacheState, (t.memory_cache.map Prod.fst).Nodup →
        (CacheManager.cleanup_evict t).memory_cache.length =
          min t.memory_cache.length t.max_size ∧
        (∀ e ∈ t.memory_cache,
            e ∉ (CacheManager.cleanup_evict t).memory_cache →
            ∀ e2 ∈ (CacheManager.cleanup_evict t).memory_cache,
              e.2.timestamp ≤ e2.2.timestamp)) := by
  have hset : (CacheManager.set s now url r).1 =
      CacheManager.cleanup
        { s with
            memory_cache := assoc_set s.memory_cache url ⟨url, now, r⟩,
            disk := (CacheManager.save_cache_to_disk s.disk now url
              ⟨url, now, r⟩).1 } now := by
    simp only [CacheManager.set] at hok ⊢
    cases hsave : (CacheManager.save_cache_to_disk s.disk now url
        ⟨url, now, r⟩).2 with
    | some e =>
      rw [hsave] at hok
      simp at hok
    | none =>
      rfl
  have hnd2 : (({ s with
      memory_cache := assoc_set s.memory_cache url ⟨url, now, r⟩,
      disk := (CacheManager.save_cache_to_disk s.disk now url
        ⟨url, now, r⟩).1 } : CacheState).memory_cache.map Prod.fst).Nodup :=
    assoc_set_keys_nodup _ _ _ hnd
  have hndt : (((CacheManager.cleanup_expired
      { s with
          memory_cache := assoc_set s.memory_cache url ⟨url, now, r⟩,
          disk := (CacheManager.save_cache_to_disk s.disk now url
            ⟨url, now, r⟩).1 } now).memory_cache).map Prod.fst).Nodup := by
    rw [cleanup_expired_memory _ now hnd2]
    exact ((List.filter_sublist _).map Prod.fst).nodup hnd2
  have hmax : (CacheManager.cleanup_expired
      { s with
          memory_cache := assoc_set s.memory_cache url ⟨url, now, r⟩,
          disk := (CacheManager.save_cache_to_disk s.disk now url
            ⟨url, now, r⟩).1 } now).max_size = s.max_size :=
    (cleanup_expired_config _ now).1
  have hexp : (CacheManager.cleanup_expired
      { s with
          memory_cache := assoc_set s.memory_cache url ⟨url, now, r⟩,
          disk := (CacheManager.save_cache_to_disk s.disk now url
            ⟨url, now, r⟩).1 } now).expire_time = s.expire_time :=
    (cleanup_expired_config _ now).2
  refine ⟨?_, ?_, fun t hnd3 => cleanup_expired_memory t now hnd3,
    fun t hnd3 => ⟨(cleanup_evict_spec t hnd3).1, (cleanup_evict_spec t hnd3).2.1⟩⟩
  · rw [hset]
    unfold CacheManager.cleanup
    rw [(cleanup_evict_spec _ hndt).1, hmax]
    exact Nat.min_le_right _ _
  · intro e he
    rw [hset] at he
    unfold CacheManager.cleanup at he
    have hmem := (cleanup_evict_spec _ hndt).2.2 e he
    rw [cleanup_expired_memory _ now hnd2] at hmem
    have := (List.mem_filter.mp hmem).2
    simp only [decide_eq_true_eq] at this
    exact this

def c2wstate : CacheState :=
  { disk := ⟨[], []⟩, max_size := 2, expire_time := 100,
    preload_enabled := false, preload_count := 20,
    memory_cache := [("a", ⟨"a", 0, []⟩), ("b", ⟨"b", 5, []⟩)],
    content_hash_map := [], preload_urls := [] }

theorem claim_C2_capacity_eviction_witness :
    (c2wstate.memory_cache.map Prod.fst).Nodup ∧
    (CacheManager.set c2wstate 10 "c" []).2 = none ∧
    (CacheManager.set c2wstate 10 "c" []).1.memory_cache.length ≤
      c2wstate.max_size :=
  ⟨by decide, by decide,
   (claim_C2_capacity_eviction c2wstate 10 "c" [] (by decide) (by decide)).1⟩

/-! ## Claim C10: the constructor always warms the memory cache -/

theorem alookup_mem_keys {α : Type} (l : List (String × α)) (k : String)
    (hk : k ∈ l.map Prod.fst) : ∃ v, alookup l k = some v ∧ (k, v) ∈ l := by
  cases hv : alookup l k with
  | none =>
    exfalso
    rcases List.mem_map.mp hk with ⟨e, he, hek⟩
    exact alookup_eq_none.mp hv e he hek
  | some v => exact ⟨v, rfl, alookup_mem hv⟩

theorem mem_sorted_cache_files {d : Disk} {p : String}
    (hp : p ∈ CacheManager.get_sorted_cache_files d) :
    p ∈ d.primaries.map Prod.fst := by
  unfold CacheManager.get_sorted_cache_files at hp
  rcases List.mem_map.mp hp with ⟨f, hf, hfp⟩
  exact hfp ▸ List.mem_map_of_mem Prod.fst ((stableSortBy_perm _ _).mem_iff.mp hf)

theorem load_files_ok : ∀ (paths : List String) (s : CacheState),
    (∀ p ∈ paths, ∃ mt cd,
        alookup s.disk.primaries p = some ⟨mt, FileContent.json cd⟩ ∧
        cd.url ≠ "") →
    (CacheManager.load_files s paths).2 = none ∧
    (CacheManager.load_files s paths).1.disk = s.disk ∧
    (CacheManager.load_files s paths).1.preload_urls = s.preload_urls ∧
    ((s.memory_cache ≠ [] ∨ paths ≠ []) →
      (CacheManager.load_files s paths).1.memory_cache ≠ []) := by
  intro paths
  induction paths with
  | nil =>
    intro s _
    refine ⟨rfl, rfl, rfl, ?_⟩
    rintro (h | h)
    · exact h
    · exact absurd rfl h
  | cons p ps ih =>
    intro s hval
    rcases hval p (List.mem_cons_self p ps) with ⟨mt, cd, hlook, hurl⟩
    have hstep : CacheManager.load_single_cache_file s p =
        ({ s with
            memory_cache :=
              assoc_set s.memory_cache cd.url
                ({ cd with
                    result :=
                      (if hasScreenshotFlag cd.result then
                          CacheManager.load_screenshot_for_cache s.disk
                            cd.url cd.result
                        else cd.result) }) },
         none) := by
      unfold CacheManager.load_single_cache_file
      simp only [hlook]
      rw [if_pos hurl]
    have hrec := ih ({ s with
        memory_cache :=
          assoc_set s.memory_cache cd.url
            ({ cd with
                result :=
                  (if hasScreenshotFlag cd.result then
                      CacheManager.load_screenshot_for_cache s.disk
                        cd.url cd.result
                    else cd.result) }) }) (by
      intro q hq
      exact hval q (List.mem_cons_of_mem p hq))
    unfold CacheManager.load_files
    rw [hstep]
    refine ⟨hrec.1, hrec.2.1, hrec.2.2.1, ?_⟩
    intro _
    apply hrec.2.2.2
    exact Or.inl (assoc_set_ne_nil _ _ _)

theorem preload_one_memory_ne (s : CacheState) (p : String)
    (h : s.memory_cache ≠ []) :
    (CacheManager.preload_one s p).memory_cache ≠ [] := by
  unfold CacheManager.preload_one
  split
  · split
    · split
      · exact assoc_set_ne_nil _ _ _
      · exact h
    · exact h
  · exact h

theorem foldl_preload_memory_ne (ps : List String) : ∀ s : CacheState,
    s.memory_cache ≠ [] →
    (ps.foldl CacheManager.preload_one s).memory_cache ≠ [] := by
  induction ps with
  | nil => intro s h; exact h
  | cons p ps ih =>
    intro s h
    rw [List.foldl_cons]
    exact ih _ (preload_one_memory_ne s p h)

theorem sorted_files_mtime_dominance (d : Disk) (ms : Nat) :
    ∀ fa ∈ (stableSortBy (fun a b : String × PrimFile =>
        decide (b.2.mtime ≤ a.2.mtime)) d.primaries).take ms,
    ∀ fb ∈ d.primaries,
      fb.1 ∉ ((stableSortBy (fun a b : String × PrimFile =>
        decide (b.2.mtime ≤ a.2.mtime)) d.primaries).take ms).map Prod.fst →
      fb.2.mtime ≤ fa.2.mtime := by
  intro fa hfa fb hfb hnot
  have hperm := stableSortBy_perm (fun a b : String × PrimFile =>
    decide (b.2.mtime ≤ a.2.mtime)) d.primaries
  have hfb_sorted : fb ∈ stableSortBy (fun a b : String × PrimFile =>
      decide (b.2.mtime ≤ a.2.mtime)) d.primaries := hperm.mem_iff.mpr hfb
  have hfb_not_take : fb ∉ (stableSortBy (fun a b : String × PrimFile =>
      decide (b.2.mtime ≤ a.2.mtime)) d.primaries).take ms :=
    fun hc => hnot (List.mem_map_of_mem Prod.fst hc)
  have hsplit := List.take_append_drop ms (stableSortBy
    (fun a b : String × PrimFile => decide (b.2.mtime ≤ a.2.mtime)) d.primaries)
  have hfb_drop : fb ∈ (stableSortBy (fun a b : String × PrimFile =>
      decide (b.2.mtime ≤ a.2.mtime)) d.primaries).drop ms := by
    have h2 : fb ∈ (stableSortBy (fun a b : String × PrimFile =>
        decide (b.2.mtime ≤ a.2.mtime)) d.primaries).take ms ++
        (stableSortBy (fun a b : String × PrimFile =>
        decide (b.2.mtime ≤ a.2.mtime)) d.primaries).drop ms := by
      rw [hsplit]
      exact hfb_sorted
    rcases List.mem_append.mp h2 with h | h
    · exact absurd h hfb_not_take
    · exact h
  have hpw : (stableSortBy (fun a b : String × PrimFile =>
      decide (b.2.mtime ≤ a.2.mtime)) d.primaries).Pairwise
      (fun a b => decide (b.2.mtime ≤ a.2.mtime) = true) := by
    apply stableSortBy_sorted
    · intro a b
      simp only [decide_eq_true_eq]
      exact Int.le_total _ _
    · intro a b c hab hbc
      simp only [decide_eq_true_eq] at hab hbc ⊢
      omega
  have hpw2 : ((stableSortBy (fun a b : String × PrimFile =>
      decide (b.2.mtime ≤ a.2.mtime)) d.primaries).take ms ++
      (stableSortBy (fun a b : String × PrimFile =>
      decide (b.2.mtime ≤ a.2.mtime)) d.primaries).drop ms).Pairwise
      (fun a b => decide (b.2.mtime ≤ a.2.mtime) = true) := by
    rw [hsplit]
    exact hpw
  have hcross := (List.pairwise_append.mp hpw2).2.2
  have := hcross fa hfa fb hfb_drop
  simpa using this

/-- C10: `__init__` always runs `_load_cache_from_disk`, so over a
directory of valid primary files construction succeeds with no error,
the memory cache is non-empty whenever the directory is non-empty and
`max_size > 0` — even with preloading disabled, in which case
`preload_urls` stays empty — and every file outside the `max_size`
most-recently-modified prefix has an mtime no larger than every file
inside it. -/
theorem claim_C10_constructor_always_loads (d : Disk) (ms : Nat) (em : Int)
    (pe : Bool) (pc : Nat)
    (hvalid : ∀ f ∈ d.primaries, ∃ cd,
        f.2.content = FileContent.json cd ∧ cd.url ≠ "") :
    (CacheManager.init d ms em pe pc).2 = none ∧
    (pe = false → (CacheManager.init d ms em pe pc).1.preload_urls = []) ∧
    (d.primaries ≠ [] → 0 < ms →
        (CacheManager.init d ms em pe pc).1.memory_cache ≠ []) ∧
    (∀ fa ∈ (stableSortBy (fun a b : String × PrimFile =>
        decide (b.2.mtime ≤ a.2.mtime)) d.primaries).take ms,
     ∀ fb ∈ d.primaries,
      fb.1 ∉ ((stableSortBy (fun a b : String × PrimFile =>
        decide (b.2.mtime ≤ a.2.mtime)) d.primaries).take ms).map Prod.fst →
      fb.2.mtime ≤ fa.2.mtime) := by
  have hpaths : ∀ p ∈ (CacheManager.get_sorted_cache_files d).take ms,
      ∃ mt cd, alookup d.primaries p = some ⟨mt, FileContent.json cd⟩ ∧
        cd.url ≠ "" := by
    intro p hp
    have hp2 := mem_sorted_cache_files (List.take_subset ms _ hp)
    rcases alookup_mem_keys d.primaries p hp2 with ⟨pf, hlook, hmem⟩
    rcases hvalid (p, pf) hmem with ⟨cd, hcontent, hurl⟩
    refine ⟨pf.mtime, cd, ?_, hurl⟩
    rw [hlook]
    congr 1
    cases pf
    simp_all
  set S0 : CacheState :=
    { disk := d, max_size := ms, expire_time := em * 60,
      preload_enabled := pe, preload_count := pc, memory_cache := [],
      content_hash_map := [], preload_urls := [] } with hS0
  have hload := load_files_ok ((CacheManager.get_sorted_cache_files d).take ms)
    S0 hpaths
  obtain ⟨herr, hdisk, hpre, hmem⟩ := hload
  have hres : CacheManager.load_cache_from_disk S0 =
      ((CacheManager.load_files S0
        ((CacheManager.get_sorted_cache_files d).take ms)).1, none) := by
    unfold CacheManager.load_cache_from_disk
    exact Prod.ext rfl herr
  have hinit : CacheManager.init d ms em pe pc =
      (if pe then
        (CacheManager.preload_cache (CacheManager.load_files S0
          ((CacheManager.get_sorted_cache_files d).take ms)).1, none)
       else
        ((CacheManager.load_files S0
          ((CacheManager.get_sorted_cache_files d).take ms)).1, none)) := by
    simp only [CacheManager.init, hres]
  refine ⟨?_, ?_, ?_, sorted_files_mtime_dominance d ms⟩
  · rw [hinit]
    by_cases hpe : pe = true <;> simp [hpe]
  · intro hpe
    rw [hinit, hpe]
    simp only [Bool.false_eq_true, if_false]
    exact hpre
  · intro hprim hms
    have hne : (CacheManager.load_files S0
        ((CacheManager.get_sorted_cache_files d).take ms)).1.memory_cache ≠ [] := by
      apply hmem
      right
      have hlen : (CacheManager.get_sorted_cache_files d).length =
          d.primaries.length := by
        unfold CacheManager.get_sorted_cache_files
        rw [List.length_map]
        exact (stableSortBy_perm _ _).length_eq
      intro hc
      have := congrArg List.length hc
      rw [List.length_take, hlen] at this
      simp only [List.length_nil] at this
      have hplen : 0 < d.primaries.length := List.length_pos.mpr hprim
      omega
    rw [hinit]
    by_cases hpe : pe = true
    · simp only [hpe, if_true]
      unfold CacheManager.preload_cache
      exact foldl_preload_memory_ne _ _ hne
    · simp only [hpe, if_false]
      exact hne

def c10disk : Disk :=
  ⟨[("a.json", ⟨1, .json ⟨"ua", 0, []⟩⟩),
    ("b.json", ⟨9, .json ⟨"ub", 0, []⟩⟩),
    ("c.json", ⟨5, .json ⟨"uc", 0, []⟩⟩)], []⟩

theorem claim_C10_constructor_always_loads_witness :
    (∀ f ∈ c10disk.primaries, ∃ cd,
        f.2.content = FileContent.json cd ∧ cd.url ≠ "") ∧
    (CacheManager.init c10disk 2 1440 false 20).2 = none ∧
    (CacheManager.init c10disk 2 1440 false 20).1.preload_urls = [] ∧
    (CacheManager.init c10disk 2 1440 false 20).1.memory_cache ≠ [] := by
  have hvalid : ∀ f ∈ c10disk.primaries, ∃ cd,
      f.2.content = FileContent.json cd ∧ cd.url ≠ "" := by
    intro f hf
    fin_cases hf
    · exact ⟨⟨"ua", 0, []⟩, rfl, by decide⟩
    · exact ⟨⟨"ub", 0, []⟩, rfl, by decide⟩
    · exact ⟨⟨"uc", 0, []⟩, rfl, by decide⟩
  have h := claim_C10_constructor_always_loads c10disk 2 1440 false 20 hvalid
  exact ⟨hvalid, h.1, h.2.1 rfl, h.2.2.1 (by decide) (by decide)⟩

/-! ## Claim C6: screenshot externalization round-trip -/

theorem alookup_append {α : Type} (l1 l2 : List (String × α)) (k : String) :
    alookup (l1 ++ l2) k =
      match alookup l1 k with
      | some v => some v
      | none => alookup l2 k := by
  unfold alookup
  rw [List.find?_append]
  cases List.find? (fun e => e.1 == k) l1 <;> simp

theorem alookup_assoc_drop_ne {α : Type} (l : List (String × α))
    (k k0 : String) (h : k ≠ k0) :
    alookup (assoc_drop l k0) k = alookup l k := by
  induction l with
  | nil => rfl
  | cons f fs ih =>
    unfold assoc_drop at ih ⊢
    rw [List.filter_cons]
    by_cases hf : f.1 = k0
    · have hb : decide (f.1 ≠ k0) = false := by simp [hf]
      simp only [hb, Bool.false_eq_true, if_false]
      rw [ih]
      have hfk : (f.1 == k) = false := by
        simp only [beq_eq_false_iff_ne, ne_eq]
        intro hc
        exact h (hc ▸ hf)
      unfold alookup
      rw [List.find?_cons]
      simp [hfk]
    · have hb : decide (f.1 ≠ k0) = true := by simpa using hf
      simp only [hb, if_true]
      unfold alookup
      rw [List.find?_cons, List.find?_cons]
      by_cases hfk : f.1 = k
      · simp [hfk]
      · have hfkb : (f.1 == k) = false := by simpa using hfk
        simp only [hfkb]
        exact ih

theorem assoc_set_of_absent {α : Type} (l : List (String × α)) (k : String)
    (v : α) (h : alookup l k = none) : assoc_set l k v = l ++ [(k, v)] := by
  unfold assoc_set
  rw [h]
  simp

def c6state : CacheState :=
  { disk := ⟨[], []⟩, max_size := 10, expire_time := 86400,
    preload_enabled := false, preload_count := 20,
    memory_cache := [], content_hash_map := [], preload_urls := [] }

/-- A payload that already carries a `has_screenshot` key alongside the
screenshot bytes. -/
def c6payload : ResultDict :=
  [("has_screenshot", Value.bool false), ("screenshot", Value.bytes [137, 80])]

/-- C6 counterexample: saving overwrites the payload's own
`has_screenshot` field with `True` (cache.py line 334) and reloading
pops it (cache.py line 286), so the write-then-read round-trip is *not*
the identity on every payload with a screenshot bytes field: the
reloaded entry has no `has_screenshot` key while the original payload
mapped it to `False`. -/
theorem claim_C6_counterexample :
    (CacheManager.set c6state 0 "u" c6payload).2 = none ∧
    alookup (CacheManager.load_single_cache_file
        { (CacheManager.set c6state 0 "u" c6payload).1 with memory_cache := [] }
        (primaryPath "u")).1.memory_cache "u" =
      some ⟨"u", 0, [("screenshot", Value.bytes [137, 80])]⟩ ∧
    alookup c6payload "has_screenshot" = some (Value.bool false) ∧
    alookup [("screenshot", Value.bytes [137, 80])] "has_screenshot" = none := by
  exact ⟨rfl, rfl, rfl, rfl⟩

theorem assoc_drop_append {α : Type} (l1 l2 : List (String × α))
    (k : String) :
    assoc_drop (l1 ++ l2) k = assoc_drop l1 k ++ assoc_drop l2 k := by
  unfold assoc_drop
  exact List.filter_append _ _

theorem load_single_computes (s3 : CacheState) (path : String) (mt : Int)
    (cd : CacheData)
    (hlook : alookup s3.disk.primaries path =
      some ⟨mt, FileContent.json cd⟩)
    (hurl2 : cd.url ≠ "") :
    CacheManager.load_single_cache_file s3 path =
      ({ s3 with
          memory_cache :=
            assoc_set s3.memory_cache cd.url
              ({ cd with
                  result :=
                    (if hasScreenshotFlag cd.result then
                        CacheManager.load_screenshot_for_cache s3.disk
                          cd.url cd.result
                      else cd.result) }) },
       none) := by
  unfold CacheManager.load_single_cache_file
  simp only [hlook]
  rw [if_pos hurl2]

/-- C6 amended: for a payload whose `screenshot` field holds bytes,
whose other fields are JSON-serializable (no second `bytes` field) and
which does not already contain a `has_screenshot` key, on a manager
whose cleanup does not evict the fresh entry (`empty memory`,
`max_size >= 1`, positive TTL, non-empty URL): `set` succeeds, the
primary JSON file on disk has no `screenshot` field, and reloading the
entry from disk after clearing `memory_cache` reproduces the payload
exactly (same lookup on every key, the marker removed). -/
theorem claim_C6_binary_roundtrip_amended (s : CacheState) (now : Int)
    (url : String) (payload : ResultDict) (b : List Nat)
    (hurl : url ≠ "")
    (hmem : s.memory_cache = [])
    (hmax : 1 ≤ s.max_size) (hexp : 0 < s.expire_time)
    (hshot : alookup payload "screenshot" = some (Value.bytes b))
    (hmark : alookup payload "has_screenshot" = none)
    (hsafe : ∀ e ∈ payload, e.1 ≠ "screenshot" → e.2.isBytes = false) :
    (CacheManager.set s now url payload).2 = none ∧
    (∃ cd, alookup (CacheManager.set s now url payload).1.disk.primaries
        (primaryPath url) = some ⟨now, FileContent.json cd⟩ ∧
      alookup cd.result "screenshot" = none) ∧
    (∃ cd2, alookup (CacheManager.load_single_cache_file
        { (CacheManager.set s now url payload).1 with memory_cache := [] }
        (primaryPath url)).1.memory_cache url = some cd2 ∧
      ∀ k, alookup cd2.result k = alookup payload k) := by
  have hdropmark : alookup (assoc_drop payload "screenshot") "has_screenshot" =
      none := by
    rw [alookup_assoc_drop_ne payload "has_screenshot" "screenshot" (by decide)]
    exact hmark
  have hr1 : assoc_set (assoc_drop payload "screenshot") "has_screenshot"
      (Value.bool true) =
      assoc_drop payload "screenshot" ++ [("has_screenshot", Value.bool true)] :=
    assoc_set_of_absent _ _ _ hdropmark
  have hsafe1 : jsonSafe (assoc_set (assoc_drop payload "screenshot")
      "has_screenshot" (Value.bool true)) = true := by
    rw [hr1]
    unfold jsonSafe
    rw [List.all_append, Bool.and_eq_true]
    refine ⟨?_, by rfl⟩
    rw [List.all_eq_true]
    intro e he
    unfold assoc_drop at he
    have hef := List.mem_filter.mp he
    have hne : e.1 ≠ "screenshot" := by simpa using hef.2
    have := hsafe e hef.1 hne
    simp [this]
  have hsave : CacheManager.save_cache_to_disk s.disk now url
      ⟨url, now, payload⟩ =
      ((s.disk.writeShot (shotPath url) b).writePrimary (primaryPath url) now
        (FileContent.json ⟨url, now,
          assoc_set (assoc_drop payload "screenshot") "has_screenshot"
            (Value.bool true)⟩), none) := by
    unfold CacheManager.save_cache_to_disk
    simp only [hshot, hsafe1, if_true]
  have hcleanid : ∀ t : CacheState,
      t.memory_cache = [(url, ⟨url, now, payload⟩)] →
      t.expire_time = s.expire_time → t.max_size = s.max_size →
      CacheManager.cleanup t now = t := by
    intro t hmemt hexpt hmaxt
    unfold CacheManager.cleanup
    have hce : CacheManager.cleanup_expired t now = t := by
      unfold CacheManager.cleanup_expired
      have hfalse2 : decide (t.expire_time ≤ now - now) = false := by
        simp only [decide_eq_false_iff_not]
        rw [hexpt]
        omega
      have hnil : (t.memory_cache.filter
          (fun e => decide (t.expire_time ≤ now - e.2.timestamp))).map (·.1) =
          [] := by
        rw [hmemt, List.filter_cons]
        dsimp only
        rw [hfalse2]
        simp
      rw [hnil]
      rfl
    rw [hce]
    unfold CacheManager.cleanup_evict
    have hcond : ¬ (t.max_size < t.memory_cache.length) := by
      rw [hmemt, hmaxt]
      simp only [List.length_cons, List.length_nil]
      omega
    rw [if_neg hcond]
  have hset : CacheManager.set s now url payload =
      ({ s with
          memory_cache := [(url, ⟨url, now, payload⟩)],
          disk := (s.disk.writeShot (shotPath url) b).writePrimary
            (primaryPath url) now
            (FileContent.json ⟨url, now,
              assoc_set (assoc_drop payload "screenshot") "has_screenshot"
                (Value.bool true)⟩) }, none) := by
    simp only [CacheManager.set, hsave, hmem]
    rw [assoc_set_of_absent ([] : List (String × CacheData)) url
      ⟨url, now, payload⟩ rfl]
    simp only [List.nil_append]
    rw [hcleanid ({ s with
        memory_cache := [(url, ⟨url, now, payload⟩)],
        disk := (s.disk.writeShot (shotPath url) b).writePrimary
          (primaryPath url) now
          (FileContent.json ⟨url, now,
            assoc_set (assoc_drop payload "screenshot") "has_screenshot"
              (Value.bool true)⟩) }) rfl rfl rfl]
  refine ⟨by rw [hset], ?_, ?_⟩
  · refine ⟨⟨url, now, assoc_set (assoc_drop payload "screenshot")
      "has_screenshot" (Value.bool true)⟩, ?_, ?_⟩
    · rw [hset]
      exact alookup_assoc_set_self _ _ _
    · rw [hr1, alookup_append, alookup_assoc_drop_self]
      rfl
  · rw [hset]
    have hflag : hasScreenshotFlag (assoc_set (assoc_drop payload "screenshot")
        "has_screenshot" (Value.bool true)) = true := by
      unfold hasScreenshotFlag
      rw [alookup_assoc_set_self]
      rfl
    have hscr_r1 : alookup (assoc_set (assoc_drop payload "screenshot")
        "has_screenshot" (Value.bool true)) "screenshot" = none := by
      rw [hr1, alookup_append, alookup_assoc_drop_self]
      rfl
    rw [load_single_computes _ (primaryPath url) now
      ⟨url, now, assoc_set (assoc_drop payload "screenshot") "has_screenshot"
        (Value.bool true)⟩ (alookup_assoc_set_self _ _ _) hurl]
    simp only [hflag, if_true]
    unfold CacheManager.load_screenshot_for_cache
    have hshotlook : alookup ((s.disk.writeShot (shotPath url) b).writePrimary
        (primaryPath url) now (FileContent.json ⟨url, now,
          assoc_set (assoc_drop payload "screenshot") "has_screenshot"
            (Value.bool true)⟩)).shots (shotPath url) = some b :=
      alookup_assoc_set_self _ _ _
    simp only [hshotlook]
    have hshotset : assoc_set (assoc_set (assoc_drop payload "screenshot")
        "has_screenshot" (Value.bool true)) "screenshot" (Value.bytes b) =
        assoc_set (assoc_drop payload "screenshot") "has_screenshot"
          (Value.bool true) ++ [("screenshot", Value.bytes b)] :=
      assoc_set_of_absent _ _ _ hscr_r1
    have hRfinal : assoc_drop
        (assoc_set (assoc_set (assoc_drop payload "screenshot")
          "has_screenshot" (Value.bool true)) "screenshot" (Value.bytes b))
        "has_screenshot" =
        assoc_drop payload "screenshot" ++ [("screenshot", Value.bytes b)] := by
      rw [hshotset, hr1, assoc_drop_append, assoc_drop_append,
        assoc_drop_of_not_mem hdropmark]
      have h1 : assoc_drop [("has_screenshot", Value.bool true)]
          "has_screenshot" = [] := by decide
      have h2 : assoc_drop [("screenshot", Value.bytes b)] "has_screenshot" =
          [("screenshot", Value.bytes b)] := by
        unfold assoc_drop
        simp
      rw [h1, h2]
      simp
    rw [hRfinal]
    refine ⟨⟨url, now,
      assoc_drop payload "screenshot" ++ [("screenshot", Value.bytes b)]⟩,
      ?_, ?_⟩
    · exact alookup_assoc_set_self _ _ _
    · intro k
      by_cases hk : k = "screenshot"
      · rw [hk, alookup_append, alookup_assoc_drop_self, hshot]
        rfl
      · rw [alookup_append, alookup_assoc_drop_ne payload k "screenshot" hk]
        cases hpk : alookup payload k with
        | some v => rfl
        | none =>
          have hsing : alookup [("screenshot", Value.bytes b)] k = none := by
            rw [alookup_eq_none]
            intro e he
            rw [List.mem_singleton.mp he]
            intro hc
            exact hk hc.symm
          rw [hsing]

def c6wpayload : ResultDict :=
  [("title", Value.str "t"), ("screenshot", Value.bytes [137, 80, 78])]

theorem claim_C6_binary_roundtrip_amended_witness :
    alookup c6wpayload "screenshot" = some (Value.bytes [137, 80, 78]) ∧
    alookup c6wpayload "has_screenshot" = none ∧
    ((CacheManager.set c6state 0 "u" c6wpayload).2 = none ∧
     (∃ cd, alookup (CacheManager.set c6state 0 "u" c6wpayload).1.disk.primaries
        (primaryPath "u") = some ⟨0, FileContent.json cd⟩ ∧
       alookup cd.result "screenshot" = none) ∧
     (∃ cd2, alookup (CacheManager.load_single_cache_file
        { (CacheManager.set c6state 0 "u" c6wpayload).1 with
          memory_cache := [] }
        (primaryPath "u")).1.memory_cache "u" = some cd2 ∧
       ∀ k, alookup cd2.result k = alookup c6wpayload k)) :=
  ⟨by decide, by decide,
   claim_C6_binary_roundtrip_amended c6state 0 "u" c6wpayload [137, 80, 78]
     (by decide) rfl (by decide) (by decide) (by decide) (by decide)
     (by decide)⟩

/-! ## Claim C9: URL normalization -/

/-- C9 counterexample: `normalize_url` is *not* idempotent.  For
`"http://h/a/;b/"` the first pass finds no `;` at or after the last `/`
(params stay empty), so `rstrip("/")` exposes a `/;` boundary; the
second pass then splits `;b` off as params and `rstrip`s the now-last
path segment `/a/` to `/a`, producing a different string. -/
theorem claim_C9_counterexample :
    WebAnalyzer.normalize_url true "http://h/a/;b/" = "http://h/a/;b" ∧
    WebAnalyzer.normalize_url true
        (WebAnalyzer.normalize_url true "http://h/a/;b/") = "http://h/a;b" ∧
    WebAnalyzer.normalize_url true
        (WebAnalyzer.normalize_url true "http://h/a/;b/") ≠
      WebAnalyzer.normalize_url true "http://h/a/;b/" := by
  refine ⟨by decide, by decide, by decide⟩

theorem toNat_ofNat_small (n : Nat) (h : n < 55296) :
    (Char.ofNat n).toNat = n := by
  unfold Char.ofNat
  rw [dif_pos (Or.inl h : n.isValidChar)]
  rfl

theorem char_eq_of_toNat {a b : Char} (h : a.toNat = b.toNat) : a = b := by
  have ha := Char.ofNat_toNat a
  have hb := Char.ofNat_toNat b
  rw [← ha, ← hb, h]

theorem toLower_toNat (c : Char) : (Char.toLower c).toNat =
    if c.toNat ≥ 65 ∧ c.toNat ≤ 90 then c.toNat + 32 else c.toNat := by
  unfold Char.toLower
  split
  · rename_i h
    rw [if_pos h]
    exact toNat_ofNat_small _ (by omega)
  · rename_i h
    rw [if_neg h]

theorem toLower_idem (c : Char) :
    Char.toLower (Char.toLower c) = Char.toLower c := by
  apply char_eq_of_toNat
  rw [toLower_toNat, toLower_toNat]
  split_ifs <;> omega

theorem lowerC_idem (l : Chars) : lowerC (lowerC l) = lowerC l := by
  unfold lowerC
  rw [List.map_map]
  apply List.map_congr_left
  intro c _
  exact toLower_idem c

theorem toLower_eq_iff_nonletter {c d : Char}
    (hd : d.toNat < 65 ∨ (90 < d.toNat ∧ d.toNat < 97) ∨ 122 < d.toNat) :
    Char.toLower c = d ↔ c = d := by
  constructor
  · intro h
    have h2 := congrArg Char.toNat h
    rw [toLower_toNat] at h2
    split at h2
    · omega
    · exact char_eq_of_toNat h2
  · intro h
    subst h
    apply char_eq_of_toNat
    rw [toLower_toNat, if_neg (by omega)]

theorem mem_lowerC_nonletter {d : Char}
    (hd : d.toNat < 65 ∨ (90 < d.toNat ∧ d.toNat < 97) ∨ 122 < d.toNat)
    (l : Chars) : d ∈ lowerC l ↔ d ∈ l := by
  unfold lowerC
  rw [List.mem_map]
  constructor
  · rintro ⟨c, hc, hcd⟩
    rw [← (toLower_eq_iff_nonletter hd).mp hcd]
    exact hc
  · intro h
    exact ⟨d, h, (toLower_eq_iff_nonletter hd).mpr rfl⟩

theorem uint32_le_iff {a b : UInt32} : (a ≤ b) ↔ a.toNat ≤ b.toNat :=
  Iff.rfl

theorem isUpper_eq_toNat (c : Char) :
    c.isUpper = decide (65 ≤ c.toNat ∧ c.toNat ≤ 90) := by
  unfold Char.isUpper
  simp [ge_iff_le, uint32_le_iff, UInt32.size, Char.toNat]

theorem isLower_eq_toNat (c : Char) :
    c.isLower = decide (97 ≤ c.toNat ∧ c.toNat ≤ 122) := by
  unfold Char.isLower
  simp [ge_iff_le, uint32_le_iff, UInt32.size, Char.toNat]

theorem isDigit_eq_toNat (c : Char) :
    c.isDigit = decide (48 ≤ c.toNat ∧ c.toNat ≤ 57) := by
  unfold Char.isDigit
  simp [ge_iff_le, uint32_le_iff, UInt32.size, Char.toNat]

theorem isAlpha_toLower {c : Char} (h : c.isAlpha = true) :
    (Char.toLower c).isAlpha = true := by
  unfold Char.isAlpha at h ⊢
  rw [isUpper_eq_toNat, isLower_eq_toNat] at h ⊢
  rw [toLower_toNat]
  simp only [Bool.or_eq_true, decide_eq_true_eq] at h ⊢
  split_ifs <;> omega

theorem schemeChar_toLower {c : Char} (h : schemeChar c = true) :
    schemeChar (Char.toLower c) = true := by
  unfold schemeChar at h ⊢
  simp only [Bool.or_eq_true, beq_iff_eq] at h ⊢
  rcases h with (((h | h) | h) | h) | h
  · exact Or.inl (Or.inl (Or.inl (Or.inl (isAlpha_toLower h))))
  · refine Or.inl (Or.inl (Or.inl (Or.inr ?_)))
    rw [isDigit_eq_toNat] at h ⊢
    rw [toLower_toNat]
    simp only [decide_eq_true_eq] at h ⊢
    split_ifs <;> omega
  · refine Or.inl (Or.inl (Or.inr ?_))
    rw [(toLower_eq_iff_nonletter (by decide)).mpr h]
  · refine Or.inl (Or.inr ?_)
    rw [(toLower_eq_iff_nonletter (by decide)).mpr h]
  · refine Or.inr ?_
    rw [(toLower_eq_iff_nonletter (by decide)).mpr h]

/-! ### Generic split and strip lemmas for the URL round trip -/

theorem contains_iff_mem (l : Chars) (c : Char) : l.contains c = true ↔ c ∈ l :=
  List.elem_iff

theorem isEmpty_false_iff (l : Chars) : l.isEmpty = false ↔ l ≠ [] := by
  cases l <;> simp

theorem splitAtFirst_eq_none {c : Char} (l : Chars) :
    splitAtFirst c l = none ↔ c ∉ l := by
  induction l with
  | nil => simp [splitAtFirst]
  | cons x xs ih =>
      unfold splitAtFirst
      by_cases hx : x = c
      · subst hx
        simp
      · rw [if_neg (by simp [hx])]
        simp [Option.map_eq_none', ih, List.mem_cons, Ne.symm hx]

theorem splitAtFirst_eq_some {c : Char} : ∀ {l : Chars} {pr : Chars × Chars},
    splitAtFirst c l = some pr → l = pr.1 ++ c :: pr.2 ∧ c ∉ pr.1 := by
  intro l
  induction l with
  | nil => intro pr h; simp [splitAtFirst] at h
  | cons x xs ih =>
      intro pr h
      unfold splitAtFirst at h
      by_cases hx : x = c
      · subst hx
        rw [if_pos (by simp)] at h
        cases h
        simp
      · rw [if_neg (by simp [hx])] at h
        cases hm : splitAtFirst c xs with
        | none => rw [hm] at h; simp at h
        | some pr2 =>
            rw [hm] at h
            simp only [Option.map_some'] at h
            obtain ⟨hq1, hq2⟩ := ih hm
            cases h
            constructor
            · simp [hq1]
            · simp [List.mem_cons, hq2, Ne.symm hx]

theorem splitAtFirst_append {c : Char} : ∀ (l1 l2 : Chars), c ∉ l1 →
    splitAtFirst c (l1 ++ c :: l2) = some (l1, l2) := by
  intro l1
  induction l1 with
  | nil =>
      intro l2 _
      simp [splitAtFirst]
  | cons x xs ih =>
      intro l2 h
      have hx : ¬ x = c := fun he => h (by simp [he])
      rw [List.cons_append]
      unfold splitAtFirst
      rw [if_neg (by simp [hx]), ih l2 (fun hc => h (List.mem_cons_of_mem _ hc))]
      rfl

theorem splitAtFirst_unique {c : Char} {l p1 r1 p2 r2 : Chars}
    (h1 : l = p1 ++ c :: r1) (m1 : c ∉ p1)
    (h2 : l = p2 ++ c :: r2) (m2 : c ∉ p2) : p1 = p2 ∧ r1 = r2 := by
  have e1 := splitAtFirst_append p1 r1 m1
  have e2 := splitAtFirst_append p2 r2 m2
  rw [← h1] at e1
  rw [← h2] at e2
  rw [e1] at e2
  injection e2 with he
  rw [Prod.mk.injEq] at he
  exact he

theorem mem_split_first {c : Char} {l : Chars} (h : c ∈ l) :
    ∃ p r, l = p ++ c :: r ∧ c ∉ p := by
  cases hm : splitAtFirst c l with
  | none => exact absurd h ((splitAtFirst_eq_none l).mp hm)
  | some pr =>
      obtain ⟨hd, hmem⟩ := splitAtFirst_eq_some hm
      exact ⟨pr.1, pr.2, hd, hmem⟩

theorem takeWhile_all_append (p : Char → Bool) : ∀ (l1 l2 : Chars),
    l1.all p = true → (l1 ++ l2).takeWhile p = l1 ++ l2.takeWhile p := by
  intro l1
  induction l1 with
  | nil => intro l2 _; rfl
  | cons x xs ih =>
      intro l2 h
      rw [List.all_cons, Bool.and_eq_true] at h
      rw [List.cons_append, List.takeWhile_cons, if_pos h.1, ih l2 h.2,
        List.cons_append]

theorem dropWhile_all_append (p : Char → Bool) : ∀ (l1 l2 : Chars),
    l1.all p = true → (l1 ++ l2).dropWhile p = l2.dropWhile p := by
  intro l1
  induction l1 with
  | nil => intro l2 _; rfl
  | cons x xs ih =>
      intro l2 h
      rw [List.all_cons, Bool.and_eq_true] at h
      rw [List.cons_append, List.dropWhile_cons, if_pos h.1, ih l2 h.2]

theorem takeWhile_head_false (p : Char → Bool) (l : Chars)
    (h : l = [] ∨ ∃ x xs, l = x :: xs ∧ p x = false) : l.takeWhile p = [] := by
  rcases h with h | ⟨x, xs, hl, hx⟩
  · rw [h]; rfl
  · rw [hl, List.takeWhile_cons, if_neg (by rw [hx]; simp)]

theorem dropWhile_head_false (p : Char → Bool) (l : Chars)
    (h : l = [] ∨ ∃ x xs, l = x :: xs ∧ p x = false) : l.dropWhile p = l := by
  rcases h with h | ⟨x, xs, hl, hx⟩
  · rw [h]; rfl
  · rw [hl, List.dropWhile_cons, if_neg (by rw [hx]; simp)]

theorem dropWhile_idem (p : Char → Bool) (l : Chars) :
    (l.dropWhile p).dropWhile p = l.dropWhile p := by
  induction l with
  | nil => rfl
  | cons x xs ih =>
      rw [List.dropWhile_cons]
      by_cases h : p x = true
      · rw [if_pos h]; exact ih
      · rw [if_neg h, List.dropWhile_cons, if_neg h]

theorem rstrip_decomp (l : Chars) :
    ∃ t, l = rstripSlash l ++ t ∧ ∀ c ∈ t, c = '/' := by
  refine ⟨(l.reverse.takeWhile (fun c => c == '/')).reverse, ?_, ?_⟩
  · conv_lhs => rw [← List.reverse_reverse l,
      ← List.takeWhile_append_dropWhile (fun c => c == '/') l.reverse]
    rw [List.reverse_append]
    rfl
  · intro c hc
    rw [List.mem_reverse] at hc
    have := List.mem_takeWhile_imp hc
    simpa using this

theorem rstrip_idem (l : Chars) : rstripSlash (rstripSlash l) = rstripSlash l := by
  unfold rstripSlash
  rw [List.reverse_reverse, dropWhile_idem]

theorem rstrip_mem {l : Chars} {c : Char} (h : c ∈ rstripSlash l) : c ∈ l := by
  obtain ⟨t, ht, _⟩ := rstrip_decomp l
  rw [ht]
  exact List.mem_append_left _ h

theorem rstrip_take_one {l : Chars} (h : l.take 1 = ['/']) :
    rstripSlash l = [] ∨ (rstripSlash l).take 1 = ['/'] := by
  obtain ⟨t, ht, _⟩ := rstrip_decomp l
  cases hr : rstripSlash l with
  | nil => exact Or.inl rfl
  | cons a rs =>
      right
      rw [hr, List.cons_append] at ht
      rw [ht] at h
      simpa using h

theorem rstrip_no_slash {l : Chars} (h : '/' ∉ l) : rstripSlash l = l := by
  unfold rstripSlash
  rw [dropWhile_head_false]
  · exact List.reverse_reverse l
  · cases hv : l.reverse with
    | nil => exact Or.inl rfl
    | cons x xs =>
        refine Or.inr ⟨x, xs, rfl, ?_⟩
        have hx : x ∈ l := by
          rw [← List.mem_reverse, hv]
          exact List.mem_cons_self _ _
        have : ¬ x = '/' := fun he => h (he ▸ hx)
        simp [this]

/-! ### The scheme-extraction step -/

/-- The first run of characters before a `:` in the path never passes the
scheme test; this is what keeps a scheme-less parse stable under
reassembly. -/
def pathSchemeSafe (path : Chars) : Prop :=
  ∀ p r, path = p ++ ':' :: r → ':' ∉ p →
    ¬(p ≠ [] ∧ headIsAlpha p = true ∧ p.all schemeChar = true)

theorem pathSchemeSafe_rstrip {path : Chars} (h : pathSchemeSafe path) :
    pathSchemeSafe (rstripSlash path) := by
  obtain ⟨t, ht, _⟩ := rstrip_decomp path
  intro p r hpr hp
  exact h p (r ++ t)
    (by rw [ht, hpr, List.append_assoc, List.cons_append]) hp

theorem pathSchemeSafe_of_head {path : Chars}
    (h : headIsAlpha path = false) : pathSchemeSafe path := by
  intro p r hpr hpmem
  rintro ⟨hne, halpha, _⟩
  cases p with
  | nil => exact hne rfl
  | cons a ps =>
      rw [hpr, List.cons_append] at h
      simp only [headIsAlpha] at h halpha
      rw [halpha] at h
      simp at h

theorem splitScheme_no_colon {l : Chars} (h : ':' ∉ l) :
    splitScheme l = ([], l) := by
  unfold splitScheme
  rw [(splitAtFirst_eq_none l).mpr h]

theorem splitScheme_fail {p r : Chars} (hp : ':' ∉ p)
    (hfail : ¬(p ≠ [] ∧ headIsAlpha p = true ∧ p.all schemeChar = true)) :
    splitScheme (p ++ ':' :: r) = ([], p ++ ':' :: r) := by
  unfold splitScheme
  rw [splitAtFirst_append p r hp]
  have hc : (!(p.isEmpty) && headIsAlpha p && p.all schemeChar) = false := by
    by_contra hb
    rw [Bool.not_eq_false, Bool.and_eq_true, Bool.and_eq_true] at hb
    refine hfail ⟨?_, hb.1.2, hb.2⟩
    rw [← isEmpty_false_iff]
    rw [← Bool.not_eq_true']
    exact hb.1.1
  dsimp only
  rw [if_neg (by rw [hc]; simp)]

theorem splitScheme_ok {p r : Chars} (hp : ':' ∉ p) (hne : p ≠ [])
    (halpha : headIsAlpha p = true) (hsc : p.all schemeChar = true) :
    splitScheme (p ++ ':' :: r) = (lowerC p, r) := by
  unfold splitScheme
  rw [splitAtFirst_append p r hp]
  dsimp only
  rw [if_pos]
  rw [Bool.and_eq_true, Bool.and_eq_true]
  refine ⟨⟨?_, halpha⟩, hsc⟩
  rw [Bool.not_eq_true']
  exact (isEmpty_false_iff p).mpr hne

theorem splitScheme_spec (l : Chars) :
    splitScheme l = ([], l) ∨
    ∃ p r, l = p ++ ':' :: r ∧ ':' ∉ p ∧ p ≠ [] ∧ headIsAlpha p = true ∧
      p.all schemeChar = true ∧ splitScheme l = (lowerC p, r) := by
  cases hm : splitAtFirst ':' l with
  | none => exact Or.inl (splitScheme_no_colon ((splitAtFirst_eq_none l).mp hm))
  | some pr =>
      obtain ⟨hdec, hmem⟩ := splitAtFirst_eq_some hm
      by_cases hok : pr.1 ≠ [] ∧ headIsAlpha pr.1 = true ∧ pr.1.all schemeChar = true
      · refine Or.inr ⟨pr.1, pr.2, hdec, hmem, hok.1, hok.2.1, hok.2.2, ?_⟩
        rw [hdec]
        exact splitScheme_ok hmem hok.1 hok.2.1 hok.2.2
      · left
        rw [hdec]
        exact splitScheme_fail hmem hok

theorem splitScheme_head_bad {l : Chars} (h1 : headIsAlpha l = false)
    (h2 : l.take 1 ≠ [':']) : splitScheme l = ([], l) := by
  rcases splitScheme_spec l with h | ⟨p, r, hdec, _, hne, halpha, _, _⟩
  · exact h
  exfalso
  cases p with
  | nil => exact h2 (by rw [hdec]; rfl)
  | cons a ps =>
      rw [hdec, List.cons_append] at h1
      simp only [headIsAlpha] at h1 halpha
      rw [halpha] at h1
      simp at h1

theorem splitScheme_path_safe {p T : Chars} (hp : pathSchemeSafe p)
    (hT : T = [] ∨ T.take 1 = ['?'] ∨ T.take 1 = ['#']) :
    splitScheme (p ++ T) = ([], p ++ T) := by
  rcases splitScheme_spec (p ++ T) with h | ⟨s, r, hdec, hsm, hne, halpha, hsc, _⟩
  · exact h
  exfalso
  by_cases hcp : ':' ∈ p
  · obtain ⟨p1, r1, hd1, hm1⟩ := mem_split_first hcp
    obtain ⟨hps, _⟩ := splitAtFirst_unique
      (show p ++ T = p1 ++ ':' :: (r1 ++ T) by
        rw [hd1, List.append_assoc, List.cons_append]) hm1 hdec hsm
    exact hp p1 r1 hd1 hm1
      ⟨by rw [hps]; exact hne, by rw [hps]; exact halpha, by rw [hps]; exact hsc⟩
  · have hcT : ':' ∈ T := by
      have hu : (':' : Char) ∈ p ++ T := by
        rw [hdec]
        exact List.mem_append_right _ (List.mem_cons_self _ _)
      rcases List.mem_append.mp hu with h | h
      · exact absurd h hcp
      · exact h
    have hbad : ∀ b : Char, b ≠ ':' → T.take 1 = [b] → schemeChar b = false → False := by
      intro b hbne hTb hbsc
      obtain ⟨t1, t2, htd, htm⟩ := mem_split_first hcT
      obtain ⟨hts, _⟩ := splitAtFirst_unique
        (show p ++ T = (p ++ t1) ++ ':' :: t2 by rw [htd, ← List.append_assoc])
        (fun hx => (List.mem_append.mp hx).elim (fun a => hcp a) (fun a => htm a))
        hdec hsm
      cases t1 with
      | nil =>
          rw [htd] at hTb
          simp at hTb
          exact hbne hTb.symm
      | cons a t1s =>
          have ha : a = b := by
            rw [htd] at hTb
            simpa using hTb
          have hmem : b ∈ s := by
            rw [← hts, ← ha]
            exact List.mem_append_right _ (List.mem_cons_self _ _)
          have := List.all_eq_true.mp hsc b hmem
          rw [hbsc] at this
          simp at this
    rcases hT with hT | hT | hT
    · rw [hT] at hcT
      simp at hcT
    · exact hbad '?' (by decide) hT (by decide)
    · exact hbad '#' (by decide) hT (by decide)

/-! ### Reassembly and re-parsing -/

/-- The `netloc`/`url` section built by `urlunsplit` before the query and
fragment are appended. -/
def netlocSection (n p : Chars) : Chars :=
  if n ≠ [] ∨ (p ≠ [] ∧ p.take 2 = ['/', '/']) then
    '/' :: '/' :: (n ++ (if p ≠ [] ∧ p.take 1 ≠ ['/'] then '/' :: p else p))
  else p

theorem urlunsplit_decomp (s n p q f : Chars) :
    urlunsplit s n p q f =
      (if s ≠ [] then s ++ ':' :: netlocSection n p else netlocSection n p) ++
      ((if q ≠ [] then '?' :: q else []) ++ (if f ≠ [] then '#' :: f else [])) := by
  unfold urlunsplit netlocSection
  by_cases hs : s = [] <;> by_cases hq : q = [] <;> by_cases hf : f = [] <;>
    simp [hs, hq, hf, List.append_assoc]

/-- `fr`/`qr` fallback of `urlsplit`: the split when the separator occurs,
the whole string with an empty remainder otherwise. -/
def orSplit (x : Option (Chars × Chars)) (d : Chars) : Chars × Chars :=
  match x with
  | some pr => pr
  | none => (d, [])

/-- The part of `urlsplit` after scheme extraction. -/
def urlsplitRest (s R : Chars) : Option SplitR :=
  let nl :=
    if R.take 2 = ['/', '/'] then
      ((R.drop 2).takeWhile netlocChar, (R.drop 2).dropWhile netlocChar)
    else ([], R)
  if (nl.1.contains '[' && !nl.1.contains ']') ||
     (nl.1.contains ']' && !nl.1.contains '[') then none
  else
    let fr := orSplit (splitAtFirst '#' nl.2) nl.2
    let qr := orSplit (splitAtFirst '?' fr.1) fr.1
    some ⟨s, nl.1, qr.1, qr.2, fr.2⟩

theorem urlsplit_eq_rest (v : Chars) :
    urlsplit? v = urlsplitRest (splitScheme v).1 (splitScheme v).2 := by
  unfold urlsplit? urlsplitRest orSplit
  rfl

theorem orSplit_none {c : Char} (l d : Chars) (h : c ∉ l) :
    orSplit (splitAtFirst c l) d = (d, []) := by
  rw [(splitAtFirst_eq_none l).mpr h]
  rfl

theorem orSplit_append {c : Char} (l1 l2 d : Chars) (h : c ∉ l1) :
    orSplit (splitAtFirst c (l1 ++ c :: l2)) d = (l1, l2) := by
  rw [splitAtFirst_append l1 l2 h]
  rfl

theorem fr_eval (p q f : Chars) (hph : '#' ∉ p) (hqh : '#' ∉ q) :
    orSplit (splitAtFirst '#'
        (p ++ ((if q ≠ [] then '?' :: q else []) ++ (if f ≠ [] then '#' :: f else []))))
      (p ++ ((if q ≠ [] then '?' :: q else []) ++ (if f ≠ [] then '#' :: f else [])))
    = (p ++ (if q ≠ [] then '?' :: q else []), f) := by
  have hpq' : '#' ∉ p ++ (if q ≠ [] then '?' :: q else [] : Chars) := by
    intro hc
    rcases List.mem_append.mp hc with hcc | hcc
    · exact hph hcc
    · by_cases hq : q = []
      · rw [if_neg (not_not_intro hq)] at hcc
        simp at hcc
      · rw [if_pos hq] at hcc
        rcases List.mem_cons.mp hcc with hcc | hcc
        · exact absurd hcc (by decide)
        · exact hqh hcc
  by_cases hf : f = []
  · subst hf
    rw [if_neg (show ¬(([] : Chars) ≠ []) from by simp), List.append_nil]
    exact orSplit_none _ _ hpq'
  · rw [if_pos hf, ← List.append_assoc]
    exact orSplit_append _ _ _ hpq'

theorem qr_eval (p q : Chars) (hpq : '?' ∉ p) :
    orSplit (splitAtFirst '?' (p ++ (if q ≠ [] then '?' :: q else [])))
      (p ++ (if q ≠ [] then '?' :: q else [])) = (p, q) := by
  by_cases hq : q = []
  · subst hq
    rw [if_neg (show ¬(([] : Chars) ≠ []) from by simp), List.append_nil]
    exact orSplit_none _ _ hpq
  · rw [if_pos hq]
    exact orSplit_append _ _ _ hpq

theorem urlsplitRest_netloc (s n p q f : Chars)
    (hn : n.all netlocChar = true)
    (hbr : ((n.contains '[' && !n.contains ']') ||
            (n.contains ']' && !n.contains '[')) = false)
    (hph : '#' ∉ p) (hpq : '?' ∉ p) (hqh : '#' ∉ q)
    (hpshape : p = [] ∨ p.take 1 = ['/']) :
    urlsplitRest s ('/' :: '/' :: (n ++ (p ++
        ((if q ≠ [] then '?' :: q else []) ++ (if f ≠ [] then '#' :: f else [])))))
      = some ⟨s, n, p, q, f⟩ := by
  have hhead : p ++ ((if q ≠ [] then '?' :: q else []) ++
        (if f ≠ [] then '#' :: f else []) : Chars) = []
      ∨ ∃ x xs, p ++ ((if q ≠ [] then '?' :: q else []) ++
        (if f ≠ [] then '#' :: f else []) : Chars) = x :: xs ∧ netlocChar x = false := by
    rcases hpshape with hp0 | hp1
    · subst hp0
      rw [List.nil_append]
      by_cases hq : q = []
      · by_cases hf : f = []
        · left
          simp [hq, hf]
        · right
          exact ⟨'#', f, by rw [if_neg (not_not_intro hq), if_pos hf]; rfl, by decide⟩
      · right
        exact ⟨'?', q ++ (if f ≠ [] then '#' :: f else []),
          by rw [if_pos hq]; rfl, by decide⟩
    · cases p with
      | nil => simp at hp1
      | cons a ps =>
          have ha : a = '/' := by
            have hp1' : [a] = ['/'] := hp1
            injection hp1'
          right
          exact ⟨a, ps ++ ((if q ≠ [] then '?' :: q else []) ++
            (if f ≠ [] then '#' :: f else [])), by rw [List.cons_append],
            by rw [ha]; decide⟩
  generalize hM : p ++ ((if q ≠ [] then '?' :: q else []) ++
      (if f ≠ [] then '#' :: f else []) : Chars) = M
  rw [hM] at hhead
  simp only [urlsplitRest]
  rw [if_pos (show ('/' :: '/' :: (n ++ M)).take 2 = ['/', '/'] from rfl)]
  dsimp only
  rw [show ('/' :: '/' :: (n ++ M)).drop 2 = n ++ M from rfl]
  rw [takeWhile_all_append netlocChar n M hn, dropWhile_all_append netlocChar n M hn]
  rw [takeWhile_head_false netlocChar M hhead, dropWhile_head_false netlocChar M hhead,
    List.append_nil]
  rw [if_neg (by rw [hbr]; simp)]
  rw [← hM]
  rw [fr_eval p q f hph hqh]
  dsimp only
  rw [qr_eval p q hpq]

theorem urlsplitRest_bare (s p q f : Chars)
    (hph : '#' ∉ p) (hpq : '?' ∉ p) (hqh : '#' ∉ q)
    (h2 : (p ++ ((if q ≠ [] then '?' :: q else []) ++
          (if f ≠ [] then '#' :: f else []))).take 2 ≠ ['/', '/']) :
    urlsplitRest s (p ++ ((if q ≠ [] then '?' :: q else []) ++
        (if f ≠ [] then '#' :: f else []))) = some ⟨s, [], p, q, f⟩ := by
  simp only [urlsplitRest]
  rw [if_neg h2]
  dsimp only
  rw [if_neg (by decide)]
  rw [fr_eval p q f hph hqh]
  dsimp only
  rw [qr_eval p q hpq]

theorem colon_not_mem_scheme {l : Chars} (h : l.all schemeChar = true) :
    ':' ∉ l := by
  intro hc
  have hsc := List.all_eq_true.mp h _ hc
  exact absurd hsc (by decide)

theorem headIsAlpha_ne_nil {s : Chars} (h : headIsAlpha s = true) : s ≠ [] := by
  intro he
  rw [he] at h
  exact absurd h (by decide)

theorem splitScheme_nonalpha_head (c : Char) (l : Chars) (h1 : c.isAlpha = false)
    (h2 : c ≠ ':') : splitScheme (c :: l) = ([], c :: l) := by
  apply splitScheme_head_bad
  · simpa [headIsAlpha] using h1
  · intro hc
    have hc' : [c] = ([':'] : Chars) := hc
    injection hc' with hc''
    exact h2 hc''

theorem take_two_to_one {p : Chars} (h : p.take 2 = ['/', '/']) :
    p.take 1 = ['/'] := by
  cases p with
  | nil => simp at h
  | cons a ps =>
      have h1 : a :: ps.take 1 = ['/', '/'] := h
      injection h1 with h2 _
      rw [h2]
      rfl

theorem netlocSection_cases (n p : Chars)
    (hnp : n ≠ [] → p = [] ∨ p.take 1 = ['/']) :
    (netlocSection n p = '/' :: '/' :: (n ++ p) ∧
      (n ≠ [] ∨ (p ≠ [] ∧ p.take 2 = ['/', '/']))) ∨
    (netlocSection n p = p ∧ n = [] ∧ (p = [] ∨ p.take 2 ≠ ['/', '/'])) := by
  unfold netlocSection
  by_cases hc : n ≠ [] ∨ (p ≠ [] ∧ p.take 2 = ['/', '/'])
  · left
    rw [if_pos hc]
    refine ⟨?_, hc⟩
    have hin : ¬(p ≠ [] ∧ p.take 1 ≠ ['/']) := by
      rintro ⟨hpne, hp1⟩
      rcases hc with hn | ⟨_, hp2⟩
      · rcases hnp hn with h | h
        · exact hpne h
        · exact hp1 h
      · exact hp1 (take_two_to_one hp2)
    rw [if_neg hin]
  · right
    rw [if_neg hc]
    refine ⟨rfl, ?_, ?_⟩
    · by_contra hn
      exact hc (Or.inl hn)
    · by_cases hp : p = []
      · exact Or.inl hp
      · exact Or.inr (fun h2 => hc (Or.inr ⟨hp, h2⟩))

theorem bare_take_two (p q f : Chars) (hcond : p = [] ∨ p.take 2 ≠ ['/', '/']) :
    (p ++ ((if q ≠ [] then '?' :: q else []) ++
      (if f ≠ [] then '#' :: f else []))).take 2 ≠ ['/', '/'] := by
  intro h
  cases p with
  | nil =>
      rw [List.nil_append] at h
      by_cases hq : q = [] <;> by_cases hf : f = [] <;>
        simp [hq, hf] at h
  | cons a ps =>
      cases ps with
      | nil =>
          rw [List.cons_append, List.nil_append] at h
          have h' : a :: ((if q ≠ [] then '?' :: q else []) ++
              (if f ≠ [] then '#' :: f else []) : Chars).take 1 = ['/', '/'] := h
          injection h' with _ h2
          by_cases hq : q = [] <;> by_cases hf : f = [] <;> simp [hq, hf] at h2
      | cons b ps2 =>
          rcases hcond with h0 | h0
          · simp at h0
          · apply h0
            have h' : ([a, b] : Chars) = ['/', '/'] := h
            exact h'

theorem tail_shape (q f : Chars) :
    ((if q ≠ [] then '?' :: q else []) ++ (if f ≠ [] then '#' :: f else []) : Chars)
      = [] ∨
    ((if q ≠ [] then '?' :: q else []) ++
      (if f ≠ [] then '#' :: f else []) : Chars).take 1 = ['?'] ∨
    ((if q ≠ [] then '?' :: q else []) ++
      (if f ≠ [] then '#' :: f else []) : Chars).take 1 = ['#'] := by
  by_cases hq : q = []
  · rw [if_neg (not_not_intro hq), List.nil_append]
    by_cases hf : f = []
    · rw [if_neg (not_not_intro hf)]
      exact Or.inl rfl
    · rw [if_pos hf]
      exact Or.inr (Or.inr rfl)
  · rw [if_pos hq]
    exact Or.inr (Or.inl rfl)

theorem urlsplit_urlunsplit (s n p q f : Chars)
    (hs : s = [] ∨ (headIsAlpha s = true ∧ s.all schemeChar = true ∧ lowerC s = s))
    (hn : n.all netlocChar = true)
    (hbr : ((n.contains '[' && !n.contains ']') ||
            (n.contains ']' && !n.contains '[')) = false)
    (hph : '#' ∉ p) (hpq : '?' ∉ p) (hqh : '#' ∉ q)
    (hnp : n ≠ [] → p = [] ∨ p.take 1 = ['/'])
    (hsafe : s = [] → n = [] → pathSchemeSafe p) :
    urlsplit? (urlunsplit s n p q f) = some ⟨s, n, p, q, f⟩ := by
  rw [urlunsplit_decomp, urlsplit_eq_rest]
  rcases netlocSection_cases n p hnp with ⟨hns, hcond⟩ | ⟨hns, hn0, hcond⟩
  · -- the reassembled URL carries a `//` section
    have hpshape : p = [] ∨ p.take 1 = ['/'] := by
      rcases hcond with hcn | ⟨_, hc2⟩
      · exact hnp hcn
      · exact Or.inr (take_two_to_one hc2)
    rw [hns]
    rcases hs with hs0 | ⟨hsa, hsc, hsl⟩
    · subst hs0
      rw [if_neg (show ¬(([] : Chars) ≠ []) from by simp)]
      have hV : ('/' :: '/' :: (n ++ p)) ++
          ((if q ≠ [] then '?' :: q else []) ++ (if f ≠ [] then '#' :: f else []))
          = '/' :: '/' :: (n ++ (p ++ ((if q ≠ [] then '?' :: q else []) ++
              (if f ≠ [] then '#' :: f else [])))) := by
        rw [List.cons_append, List.cons_append, List.append_assoc]
      rw [hV]
      rw [splitScheme_nonalpha_head '/' _ (by decide) (by decide)]
      exact urlsplitRest_netloc [] n p q f hn hbr hph hpq hqh hpshape
    · have hne : s ≠ [] := headIsAlpha_ne_nil hsa
      rw [if_pos hne]
      have hV : (s ++ ':' :: ('/' :: '/' :: (n ++ p))) ++
          ((if q ≠ [] then '?' :: q else []) ++ (if f ≠ [] then '#' :: f else []))
          = s ++ ':' :: ('/' :: '/' :: (n ++ (p ++ ((if q ≠ [] then '?' :: q else []) ++
              (if f ≠ [] then '#' :: f else []))))) := by
        rw [List.append_assoc, List.cons_append, List.cons_append, List.cons_append,
          List.append_assoc]
      rw [hV]
      rw [splitScheme_ok (colon_not_mem_scheme hsc) hne hsa hsc, hsl]
      exact urlsplitRest_netloc s n p q f hn hbr hph hpq hqh hpshape
  · -- no `//` section: the path is reassembled bare
    subst hn0
    rw [hns]
    rcases hs with hs0 | ⟨hsa, hsc, hsl⟩
    · subst hs0
      rw [if_neg (show ¬(([] : Chars) ≠ []) from by simp)]
      rw [splitScheme_path_safe (hsafe rfl rfl) (tail_shape q f)]
      exact urlsplitRest_bare [] p q f hph hpq hqh (bare_take_two p q f hcond)
    · have hne : s ≠ [] := headIsAlpha_ne_nil hsa
      rw [if_pos hne]
      have hV : (s ++ ':' :: p) ++
          ((if q ≠ [] then '?' :: q else []) ++ (if f ≠ [] then '#' :: f else []))
          = s ++ ':' :: (p ++ ((if q ≠ [] then '?' :: q else []) ++
              (if f ≠ [] then '#' :: f else []))) := by
        rw [List.append_assoc, List.cons_append]
      rw [hV]
      rw [splitScheme_ok (colon_not_mem_scheme hsc) hne hsa hsc, hsl]
      exact urlsplitRest_bare s p q f hph hpq hqh (bare_take_two p q f hcond)

/-! ### Invariants of a successful parse -/

theorem netlocChar_false_elim {c : Char} (h : netlocChar c = false) :
    c = '/' ∨ c = '?' ∨ c = '#' := by
  unfold netlocChar at h
  rw [Bool.not_eq_false'] at h
  simp only [Bool.or_eq_true, beq_iff_eq] at h
  tauto

theorem dropWhile_shape (p : Char → Bool) (l : Chars) :
    l.dropWhile p = [] ∨ ∃ x xs, l.dropWhile p = x :: xs ∧ p x = false := by
  induction l with
  | nil => exact Or.inl rfl
  | cons a as ih =>
      rw [List.dropWhile_cons]
      by_cases h : p a = true
      · rw [if_pos h]
        exact ih
      · rw [if_neg h]
        exact Or.inr ⟨a, as, rfl, by simpa using h⟩

theorem orSplit_parts (c : Char) (l : Chars) :
    ∃ T, l = (orSplit (splitAtFirst c l) l).1 ++ T ∧
      c ∉ (orSplit (splitAtFirst c l) l).1 ∧
      (((orSplit (splitAtFirst c l) l).2 = [] ∧ T = []) ∨
        T = c :: (orSplit (splitAtFirst c l) l).2) := by
  cases hm : splitAtFirst c l with
  | none =>
      exact ⟨[], by simp [orSplit], (splitAtFirst_eq_none l).mp hm, Or.inl ⟨rfl, rfl⟩⟩
  | some pr =>
      obtain ⟨hd, hmem⟩ := splitAtFirst_eq_some hm
      exact ⟨c :: pr.2, hd, hmem, Or.inr rfl⟩

theorem urlsplitRest_inv {s R : Chars} {sp : SplitR}
    (h : urlsplitRest s R = some sp) :
    sp.scheme = s ∧ sp.netloc.all netlocChar = true ∧
    ((sp.netloc.contains '[' && !sp.netloc.contains ']') ||
     (sp.netloc.contains ']' && !sp.netloc.contains '[')) = false ∧
    '#' ∉ sp.path ∧ '?' ∉ sp.path ∧ '#' ∉ sp.query ∧
    (∀ c, c ∈ sp.netloc → c ∈ R) ∧ (∀ c, c ∈ sp.path → c ∈ R) ∧
    (∀ c, c ∈ sp.query → c ∈ R) ∧ (∀ c, c ∈ sp.fragment → c ∈ R) ∧
    ((sp.netloc = [] ∧ ∃ T, R = sp.path ++ T ∧
        (T = [] ∨ T.take 1 = ['?'] ∨ T.take 1 = ['#'])) ∨
      sp.path = [] ∨ sp.path.take 1 = ['/']) := by
  simp only [urlsplitRest] at h
  by_cases ht2 : R.take 2 = ['/', '/']
  · rw [if_pos ht2] at h
    dsimp only at h
    by_cases hbc : ((((R.drop 2).takeWhile netlocChar).contains '[' &&
        !((R.drop 2).takeWhile netlocChar).contains ']') ||
        (((R.drop 2).takeWhile netlocChar).contains ']' &&
        !((R.drop 2).takeWhile netlocChar).contains '[')) = true
    · rw [if_pos hbc] at h
      cases h
    · rw [if_neg hbc] at h
      obtain ⟨T1, hfd, hfm, hfs⟩ :=
        orSplit_parts '#' ((R.drop 2).dropWhile netlocChar)
      obtain ⟨T2, hqd, hqm, hqs⟩ := orSplit_parts '?'
        (orSplit (splitAtFirst '#' ((R.drop 2).dropWhile netlocChar))
          ((R.drop 2).dropWhile netlocChar)).1
      injection h with h'
      subst h'
      dsimp only
      have hMR : ∀ c, c ∈ (R.drop 2).dropWhile netlocChar → c ∈ R := fun c hc =>
        List.Sublist.mem hc
          ((List.dropWhile_sublist _).trans (List.drop_sublist _ _))
      have hFR1 : ∀ c, c ∈ (orSplit
          (splitAtFirst '#' ((R.drop 2).dropWhile netlocChar))
          ((R.drop 2).dropWhile netlocChar)).1 →
          c ∈ (R.drop 2).dropWhile netlocChar := fun c hc => by
        rw [hfd]
        exact List.mem_append_left _ hc
      have hFR2 : ∀ c, c ∈ (orSplit
          (splitAtFirst '#' ((R.drop 2).dropWhile netlocChar))
          ((R.drop 2).dropWhile netlocChar)).2 →
          c ∈ (R.drop 2).dropWhile netlocChar := by
        rcases hfs with ⟨hf0, _⟩ | hfT
        · intro c hc
          rw [hf0] at hc
          exact absurd hc (List.not_mem_nil c)
        · intro c hc
          rw [hfd, hfT]
          exact List.mem_append_right _ (List.mem_cons_of_mem _ hc)
      have hQR1 : ∀ c, c ∈ (orSplit (splitAtFirst '?' (orSplit
          (splitAtFirst '#' ((R.drop 2).dropWhile netlocChar))
          ((R.drop 2).dropWhile netlocChar)).1) (orSplit
          (splitAtFirst '#' ((R.drop 2).dropWhile netlocChar))
          ((R.drop 2).dropWhile netlocChar)).1).1 →
          c ∈ (orSplit (splitAtFirst '#' ((R.drop 2).dropWhile netlocChar))
          ((R.drop 2).dropWhile netlocChar)).1 := fun c hc => by
        rw [hqd]
        exact List.mem_append_left _ hc
      have hQR2 : ∀ c, c ∈ (orSplit (splitAtFirst '?' (orSplit
          (splitAtFirst '#' ((R.drop 2).dropWhile netlocChar))
          ((R.drop 2).dropWhile netlocChar)).1) (orSplit
          (splitAtFirst '#' ((R.drop 2).dropWhile netlocChar))
          ((R.drop 2).dropWhile netlocChar)).1).2 →
          c ∈ (orSplit (splitAtFirst '#' ((R.drop 2).dropWhile netlocChar))
          ((R.drop 2).dropWhile netlocChar)).1 := by
        rcases hqs with ⟨hq0, _⟩ | hqT
        · intro c hc
          rw [hq0] at hc
          exact absurd hc (List.not_mem_nil c)
        · intro c hc
          rw [hqd, hqT]
          exact List.mem_append_right _ (List.mem_cons_of_mem _ hc)
      refine ⟨rfl,
        List.all_eq_true.mpr (fun x hx => List.mem_takeWhile_imp hx),
        by rw [Bool.not_eq_true] at hbc; exact hbc,
        fun hx => hfm (hQR1 _ hx),
        hqm,
        fun hx => hfm (hQR2 _ hx),
        fun c hc => List.Sublist.mem hc
          ((List.takeWhile_sublist _).trans (List.drop_sublist _ _)),
        fun c hc => hMR c (hFR1 c (hQR1 c hc)),
        fun c hc => hMR c (hFR1 c (hQR2 c hc)),
        fun c hc => hMR c (hFR2 c hc),
        ?_⟩
      right
      cases hq1 : (orSplit (splitAtFirst '?' (orSplit
          (splitAtFirst '#' ((R.drop 2).dropWhile netlocChar))
          ((R.drop 2).dropWhile netlocChar)).1) (orSplit
          (splitAtFirst '#' ((R.drop 2).dropWhile netlocChar))
          ((R.drop 2).dropWhile netlocChar)).1).1 with
      | nil => exact Or.inl rfl
      | cons x xs =>
          right
          have hMx : (R.drop 2).dropWhile netlocChar = x :: (xs ++ (T2 ++ T1)) := by
            rw [hfd, hqd, hq1, List.cons_append, List.cons_append, List.append_assoc]
          rcases dropWhile_shape netlocChar (R.drop 2) with h0 | ⟨y, ys, hy, hyn⟩
          · rw [h0] at hMx
            exact absurd hMx (by simp)
          · rw [hy] at hMx
            injection hMx with hxy _
            rw [hxy] at hyn
            rcases netlocChar_false_elim hyn with hx3 | hx3 | hx3
            · rw [hx3]
              rfl
            · exfalso
              apply hqm
              rw [hq1, hx3]
              exact List.mem_cons_self _ _
            · exfalso
              apply hfm
              apply hQR1
              rw [hq1, hx3]
              exact List.mem_cons_self _ _
  · rw [if_neg ht2] at h
    dsimp only at h
    rw [if_neg (by decide)] at h
    obtain ⟨T1, hfd, hfm, hfs⟩ := orSplit_parts '#' R
    obtain ⟨T2, hqd, hqm, hqs⟩ :=
      orSplit_parts '?' (orSplit (splitAtFirst '#' R) R).1
    injection h with h'
    subst h'
    dsimp only
    have hFR1 : ∀ c, c ∈ (orSplit (splitAtFirst '#' R) R).1 → c ∈ R :=
      fun c hc => by
        rw [hfd]
        exact List.mem_append_left _ hc
    have hFR2 : ∀ c, c ∈ (orSplit (splitAtFirst '#' R) R).2 → c ∈ R := by
      rcases hfs with ⟨hf0, _⟩ | hfT
      · intro c hc
        rw [hf0] at hc
        exact absurd hc (List.not_mem_nil c)
      · intro c hc
        rw [hfd, hfT]
        exact List.mem_append_right _ (List.mem_cons_of_mem _ hc)
    have hQR1 : ∀ c, c ∈ (orSplit (splitAtFirst '?'
        (orSplit (splitAtFirst '#' R) R).1)
        (orSplit (splitAtFirst '#' R) R).1).1 →
        c ∈ (orSplit (splitAtFirst '#' R) R).1 := fun c hc => by
      rw [hqd]
      exact List.mem_append_left _ hc
    have hQR2 : ∀ c, c ∈ (orSplit (splitAtFirst '?'
        (orSplit (splitAtFirst '#' R) R).1)
        (orSplit (splitAtFirst '#' R) R).1).2 →
        c ∈ (orSplit (splitAtFirst '#' R) R).1 := by
      rcases hqs with ⟨hq0, _⟩ | hqT
      · intro c hc
        rw [hq0] at hc
        exact absurd hc (List.not_mem_nil c)
      · intro c hc
        rw [hqd, hqT]
        exact List.mem_append_right _ (List.mem_cons_of_mem _ hc)
    refine ⟨rfl, rfl, by decide,
      fun hx => hfm (hQR1 _ hx),
      hqm,
      fun hx => hfm (hQR2 _ hx),
      fun c hc => absurd hc (List.not_mem_nil c),
      fun c hc => hFR1 c (hQR1 c hc),
      fun c hc => hFR1 c (hQR2 c hc),
      hFR2,
      ?_⟩
    refine Or.inl ⟨rfl, T2 ++ T1, ?_, ?_⟩
    · conv_lhs => rw [hfd, hqd]
      exact List.append_assoc _ _ _
    · rcases hqs with ⟨_, hT2⟩ | hqT
      · rw [hT2, List.nil_append]
        rcases hfs with ⟨_, hT1⟩ | hfT
        · exact Or.inl hT1
        · refine Or.inr (Or.inr ?_)
          rw [hfT]
          rfl
      · refine Or.inr (Or.inl ?_)
        rw [hqT, List.cons_append]
        rfl

theorem headIsAlpha_lowerC {l : Chars} (h : headIsAlpha l = true) :
    headIsAlpha (lowerC l) = true := by
  cases l with
  | nil => exact absurd h (by decide)
  | cons a t =>
      simp only [headIsAlpha] at h
      simp only [lowerC, List.map_cons, headIsAlpha]
      exact isAlpha_toLower h

theorem all_schemeChar_lowerC {l : Chars} (h : l.all schemeChar = true) :
    (lowerC l).all schemeChar = true := by
  rw [List.all_eq_true] at h ⊢
  intro x hx
  unfold lowerC at hx
  obtain ⟨d, hd, rfl⟩ := List.mem_map.mp hx
  exact schemeChar_toLower (h d hd)

/-- The facts a successful `urlsplit` guarantees about its pieces; they
are exactly what reassembly needs to parse back to the same result. -/
structure SplitInv (u : Chars) (sp : SplitR) : Prop where
  scheme_ok : sp.scheme = [] ∨ (headIsAlpha sp.scheme = true ∧
    sp.scheme.all schemeChar = true ∧ lowerC sp.scheme = sp.scheme)
  netloc_ok : sp.netloc.all netlocChar = true
  brackets : ((sp.netloc.contains '[' && !sp.netloc.contains ']') ||
    (sp.netloc.contains ']' && !sp.netloc.contains '[')) = false
  path_hash : '#' ∉ sp.path
  path_quest : '?' ∉ sp.path
  query_hash : '#' ∉ sp.query
  shape : sp.path = [] ∨ sp.path.take 1 = ['/'] ∨
    (sp.netloc = [] ∧ (sp.scheme = [] → pathSchemeSafe sp.path))
  mem_netloc : ∀ c, c ∈ sp.netloc → c ∈ u
  mem_path : ∀ c, c ∈ sp.path → c ∈ u
  mem_query : ∀ c, c ∈ sp.query → c ∈ u
  mem_frag : ∀ c, c ∈ sp.fragment → c ∈ u
  mem_scheme : ∀ c, c ∈ sp.scheme → ∃ d, d ∈ u ∧ Char.toLower d = c

theorem urlsplit_inv {u : Chars} {sp : SplitR} (h : urlsplit? u = some sp) :
    SplitInv u sp := by
  rw [urlsplit_eq_rest] at h
  rcases splitScheme_spec u with hss | ⟨p0, r0, hdec, hm0, hne0, ha0, hsc0, hss⟩
  · rw [hss] at h
    dsimp only at h
    obtain ⟨h1, h2, h3, h4, h5, h6, h7, h8, h9, h10, h11⟩ := urlsplitRest_inv h
    refine ⟨Or.inl h1, h2, h3, h4, h5, h6, ?_, h7, h8, h9, h10, ?_⟩
    · rcases h11 with ⟨hn0, T, hTd, hTs⟩ | hsh | hsh
      · refine Or.inr (Or.inr ⟨hn0, fun _ => ?_⟩)
        intro pp rr hpd hpm
        rintro ⟨hppne, hppa, hppsc⟩
        have hu : u = pp ++ ':' :: (rr ++ T) := by
          rw [hTd, hpd, List.append_assoc, List.cons_append]
        have hok := splitScheme_ok (r := rr ++ T) hpm hppne hppa hppsc
        rw [← hu, hss] at hok
        have hl : ([] : Chars) = lowerC pp := congrArg Prod.fst hok
        exact hppne (List.map_eq_nil_iff.mp hl.symm)
      · exact Or.inl hsh
      · exact Or.inr (Or.inl hsh)
    · intro c hc
      rw [h1] at hc
      exact absurd hc (List.not_mem_nil c)
  · rw [hss] at h
    dsimp only at h
    obtain ⟨h1, h2, h3, h4, h5, h6, h7, h8, h9, h10, h11⟩ := urlsplitRest_inv h
    have hmemr : ∀ c : Char, c ∈ r0 → c ∈ u := by
      intro c hc
      rw [hdec]
      exact List.mem_append_right _ (List.mem_cons_of_mem _ hc)
    refine ⟨?_, h2, h3, h4, h5, h6, ?_, fun c hc => hmemr c (h7 c hc),
      fun c hc => hmemr c (h8 c hc), fun c hc => hmemr c (h9 c hc),
      fun c hc => hmemr c (h10 c hc), ?_⟩
    · right
      rw [h1]
      exact ⟨headIsAlpha_lowerC ha0, all_schemeChar_lowerC hsc0, lowerC_idem p0⟩
    · rcases h11 with ⟨hn0, _, _, _⟩ | hsh | hsh
      · refine Or.inr (Or.inr ⟨hn0, fun hs0 => ?_⟩)
        rw [h1] at hs0
        exact absurd (List.map_eq_nil_iff.mp hs0) hne0
      · exact Or.inl hsh
      · exact Or.inr (Or.inl hsh)
    · intro c hc
      rw [h1] at hc
      unfold lowerC at hc
      obtain ⟨d, hd, rfl⟩ := List.mem_map.mp hc
      refine ⟨d, ?_, rfl⟩
      rw [hdec]
      exact List.mem_append_left _ hd

/-! ### Properties of the netloc normalisation -/

theorem normalize_netloc_result (e : Bool) (m : Chars) :
    WebAnalyzer.normalize_netloc e m = m ∨
    WebAnalyzer.normalize_netloc e m = "www.".toList ++ m := by
  unfold WebAnalyzer.normalize_netloc
  by_cases h1 : (!e || m.isEmpty || !m.contains '.') = true
  · rw [if_pos h1]
    exact Or.inl rfl
  · rw [if_neg h1]
    by_cases h2 : (startsWithC "www.".toList m || hasSubC ".www.".toList m) = true
    · rw [if_pos h2]
      exact Or.inl rfl
    · rw [if_neg h2]
      by_cases h3 : WebAnalyzer.is_ip_address m = true
      · rw [if_pos h3]
        exact Or.inl rfl
      · rw [if_neg h3]
        exact Or.inr rfl

theorem normalize_netloc_nil (e : Bool) :
    WebAnalyzer.normalize_netloc e [] = [] := by
  unfold WebAnalyzer.normalize_netloc
  rw [if_pos (by simp)]

theorem netlocChar_toLower {c : Char} (h : netlocChar c = true) :
    netlocChar (Char.toLower c) = true := by
  by_contra hb
  rw [Bool.not_eq_true] at hb
  rcases netlocChar_false_elim hb with h3 | h3 | h3 <;>
  · have hc := (toLower_eq_iff_nonletter (by decide)).mp h3
    rw [hc] at h
    exact absurd h (by decide)

theorem all_netlocChar_lowerC {l : Chars} (h : l.all netlocChar = true) :
    (lowerC l).all netlocChar = true := by
  rw [List.all_eq_true] at h ⊢
  intro x hx
  unfold lowerC at hx
  obtain ⟨d, hd, rfl⟩ := List.mem_map.mp hx
  exact netlocChar_toLower (h d hd)

theorem mem_normalize_netloc_iff (e : Bool) (m : Chars) {c : Char}
    (hc1 : c.toNat < 65 ∨ (90 < c.toNat ∧ c.toNat < 97) ∨ 122 < c.toNat)
    (hc2 : c ∉ "www.".toList) :
    c ∈ WebAnalyzer.normalize_netloc e (lowerC m) ↔ c ∈ m := by
  rcases normalize_netloc_result e (lowerC m) with h | h <;> rw [h]
  · exact mem_lowerC_nonletter hc1 m
  · rw [List.mem_append]
    constructor
    · rintro (h2 | h2)
      · exact absurd h2 hc2
      · exact (mem_lowerC_nonletter hc1 m).mp h2
    · intro h2
      exact Or.inr ((mem_lowerC_nonletter hc1 m).mpr h2)

theorem brackets_normalize (e : Bool) (m : Chars)
    (hbr : ((m.contains '[' && !m.contains ']') ||
            (m.contains ']' && !m.contains '[')) = false) :
    (((WebAnalyzer.normalize_netloc e (lowerC m)).contains '[' &&
      !(WebAnalyzer.normalize_netloc e (lowerC m)).contains ']') ||
     ((WebAnalyzer.normalize_netloc e (lowerC m)).contains ']' &&
      !(WebAnalyzer.normalize_netloc e (lowerC m)).contains '[')) = false := by
  have h1 := mem_normalize_netloc_iff e m (c := '[') (by decide) (by decide)
  have h2 := mem_normalize_netloc_iff e m (c := ']') (by decide) (by decide)
  have e1 : (WebAnalyzer.normalize_netloc e (lowerC m)).contains '[' =
      m.contains '[' := by
    by_cases hb : '[' ∈ m
    · rw [(contains_iff_mem _ _).mpr (h1.mpr hb), (contains_iff_mem _ _).mpr hb]
    · have q1 : (WebAnalyzer.normalize_netloc e (lowerC m)).contains '[' = false := by
        rw [← Bool.not_eq_true, contains_iff_mem]
        exact fun hx => hb (h1.mp hx)
      have q2 : m.contains '[' = false := by
        rw [← Bool.not_eq_true, contains_iff_mem]
        exact hb
      rw [q1, q2]
  have e2 : (WebAnalyzer.normalize_netloc e (lowerC m)).contains ']' =
      m.contains ']' := by
    by_cases hb : ']' ∈ m
    · rw [(contains_iff_mem _ _).mpr (h2.mpr hb), (contains_iff_mem _ _).mpr hb]
    · have q1 : (WebAnalyzer.normalize_netloc e (lowerC m)).contains ']' = false := by
        rw [← Bool.not_eq_true, contains_iff_mem]
        exact fun hx => hb (h2.mp hx)
      have q2 : m.contains ']' = false := by
        rw [← Bool.not_eq_true, contains_iff_mem]
        exact hb
      rw [q1, q2]
  rw [e1, e2]
  exact hbr

theorem normalize_netloc_eq_nil {e : Bool} {m : Chars}
    (h : WebAnalyzer.normalize_netloc e (lowerC m) = []) : m = [] := by
  rcases normalize_netloc_result e (lowerC m) with h2 | h2 <;> rw [h2] at h
  · exact List.map_eq_nil_iff.mp h
  · simp at h

theorem pathSchemeSafe_of_take_one {p : Chars} (h : p.take 1 = ['/']) :
    pathSchemeSafe p := by
  cases p with
  | nil => simp at h
  | cons a ps =>
      have h' : ([a] : Chars) = ['/'] := h
      injection h' with ha
      apply pathSchemeSafe_of_head
      simp only [headIsAlpha]
      rw [ha]
      decide

theorem normalize_netloc_idem (e : Bool) (m : Chars) :
    WebAnalyzer.normalize_netloc e
        (lowerC (WebAnalyzer.normalize_netloc e (lowerC m))) =
      WebAnalyzer.normalize_netloc e (lowerC m) := by
  have hLfix : lowerC (lowerC m) = lowerC m := lowerC_idem m
  unfold WebAnalyzer.normalize_netloc
  by_cases h1 : (!e || (lowerC m).isEmpty || !(lowerC m).contains '.') = true
  · rw [if_pos h1, hLfix, if_pos h1]
  · rw [if_neg h1]
    by_cases h2 : (startsWithC "www.".toList (lowerC m) ||
        hasSubC ".www.".toList (lowerC m)) = true
    · rw [if_pos h2, hLfix, if_neg h1, if_pos h2]
    · rw [if_neg h2]
      by_cases h3 : WebAnalyzer.is_ip_address (lowerC m) = true
      · rw [if_pos h3, hLfix, if_neg h1, if_neg h2, if_pos h3]
      · rw [if_neg h3]
        have hwfix : lowerC ("www.".toList ++ lowerC m) =
            "www.".toList ++ lowerC m := by
          unfold lowerC
          rw [List.map_append]
          have hmm := lowerC_idem m
          unfold lowerC at hmm
          rw [hmm]
          rw [show List.map Char.toLower "www.".toList = "www.".toList from by decide]
        rw [hwfix]
        have hg1 : ¬((!e || ("www.".toList ++ lowerC m).isEmpty ||
            !("www.".toList ++ lowerC m).contains '.') = true) := by
          intro hx
          rw [Bool.or_eq_true, Bool.or_eq_true] at hx
          rcases hx with (hx | hx) | hx
          · apply h1
            rw [Bool.or_eq_true, Bool.or_eq_true]
            exact Or.inl (Or.inl hx)
          · simp at hx
          · rw [Bool.not_eq_true'] at hx
            have hdot : ('.' : Char) ∈ "www.".toList ++ lowerC m :=
              List.mem_append_left _ (by decide)
            rw [← contains_iff_mem] at hdot
            rw [hx] at hdot
            exact absurd hdot (by decide)
        have hg2 : (startsWithC "www.".toList ("www.".toList ++ lowerC m) ||
            hasSubC ".www.".toList ("www.".toList ++ lowerC m)) = true := by
          rw [Bool.or_eq_true]
          left
          unfold startsWithC
          rw [decide_eq_true_eq]
          rfl
        rw [if_neg hg1, if_pos hg2]

theorem normalize_netloc_www (h : Chars) (hdot : h.contains '.' = true)
    (hw1 : startsWithC "www.".toList h = false)
    (hw2 : hasSubC ".www.".toList h = false)
    (hip : WebAnalyzer.is_ip_address h = false) :
    WebAnalyzer.normalize_netloc true h = "www.".toList ++ h ∧
    WebAnalyzer.normalize_netloc true ("www.".toList ++ h) =
      "www.".toList ++ h := by
  constructor
  · unfold WebAnalyzer.normalize_netloc
    rw [if_neg ?g1, if_neg ?g2, if_neg ?g3]
    case g1 =>
      intro hx
      rw [Bool.or_eq_true, Bool.or_eq_true] at hx
      rcases hx with (hx | hx) | hx
      · exact absurd hx (by decide)
      · rw [List.isEmpty_iff] at hx
        rw [hx] at hdot
        exact absurd hdot (by decide)
      · rw [Bool.not_eq_true'] at hx
        rw [hdot] at hx
        exact absurd hx (by decide)
    case g2 =>
      intro hx
      rw [Bool.or_eq_true] at hx
      rcases hx with hx | hx
      · rw [hw1] at hx
        exact absurd hx (by decide)
      · rw [hw2] at hx
        exact absurd hx (by decide)
    case g3 =>
      intro hx
      rw [hip] at hx
      exact absurd hx (by decide)
  · unfold WebAnalyzer.normalize_netloc
    rw [if_neg ?h1, if_pos ?h2]
    case h1 =>
      intro hx
      rw [Bool.or_eq_true, Bool.or_eq_true] at hx
      rcases hx with (hx | hx) | hx
      · exact absurd hx (by decide)
      · simp at hx
      · rw [Bool.not_eq_true'] at hx
        have hdot2 : ('.' : Char) ∈ "www.".toList ++ h :=
          List.mem_append_left _ (by decide)
        rw [← contains_iff_mem] at hdot2
        rw [hx] at hdot2
        exact absurd hdot2 (by decide)
    case h2 =>
      rw [Bool.or_eq_true]
      left
      unfold startsWithC
      rw [decide_eq_true_eq]
      rfl

theorem normalize_netloc_ip (h : Chars)
    (hip : WebAnalyzer.is_ip_address h = true) :
    WebAnalyzer.normalize_netloc true h = h := by
  unfold WebAnalyzer.normalize_netloc
  by_cases h1 : (!true || h.isEmpty || !h.contains '.') = true
  · rw [if_pos h1]
  · rw [if_neg h1]
    by_cases h2 : (startsWithC "www.".toList h || hasSubC ".www.".toList h) = true
    · rw [if_pos h2]
    · rw [if_neg h2, if_pos hip]

theorem mem_netlocSection {c : Char} {n p : Chars} (h : c ∈ netlocSection n p) :
    c ∈ n ∨ c ∈ p ∨ c = '/' := by
  unfold netlocSection at h
  by_cases h1 : n ≠ [] ∨ (p ≠ [] ∧ p.take 2 = ['/', '/'])
  · rw [if_pos h1] at h
    rcases List.mem_cons.mp h with h | h
    · exact Or.inr (Or.inr h)
    rcases List.mem_cons.mp h with h | h
    · exact Or.inr (Or.inr h)
    rcases List.mem_append.mp h with h | h
    · exact Or.inl h
    by_cases h2 : p ≠ [] ∧ p.take 1 ≠ ['/']
    · rw [if_pos h2] at h
      rcases List.mem_cons.mp h with h | h
      · exact Or.inr (Or.inr h)
      · exact Or.inr (Or.inl h)
    · rw [if_neg h2] at h
      exact Or.inr (Or.inl h)
  · rw [if_neg h1] at h
    exact Or.inr (Or.inl h)

theorem mem_urlunsplit {c : Char} {s n p q f : Chars}
    (hc : c ∈ urlunsplit s n p q f) :
    c ∈ s ∨ c ∈ n ∨ c ∈ p ∨ c ∈ q ∨ c ∈ f ∨
    c = '/' ∨ c = ':' ∨ c = '?' ∨ c = '#' := by
  rw [urlunsplit_decomp] at hc
  rcases List.mem_append.mp hc with h | h
  · by_cases hs : s ≠ []
    · rw [if_pos hs] at h
      rcases List.mem_append.mp h with h | h
      · exact Or.inl h
      rcases List.mem_cons.mp h with h | h
      · exact Or.inr (Or.inr (Or.inr (Or.inr (Or.inr (Or.inr (Or.inl h))))))
      rcases mem_netlocSection h with h | h | h
      · exact Or.inr (Or.inl h)
      · exact Or.inr (Or.inr (Or.inl h))
      · exact Or.inr (Or.inr (Or.inr (Or.inr (Or.inr (Or.inl h)))))
    · rw [if_neg hs] at h
      rcases mem_netlocSection h with h | h | h
      · exact Or.inr (Or.inl h)
      · exact Or.inr (Or.inr (Or.inl h))
      · exact Or.inr (Or.inr (Or.inr (Or.inr (Or.inr (Or.inl h)))))
  rcases List.mem_append.mp h with h | h
  · by_cases hq : q ≠ []
    · rw [if_pos hq] at h
      rcases List.mem_cons.mp h with h | h
      · exact Or.inr (Or.inr (Or.inr (Or.inr (Or.inr (Or.inr (Or.inr (Or.inl h)))))))
      · exact Or.inr (Or.inr (Or.inr (Or.inl h)))
    · rw [if_neg hq] at h
      exact absurd h (List.not_mem_nil c)
  · by_cases hf : f ≠ []
    · rw [if_pos hf] at h
      rcases List.mem_cons.mp h with h | h
      · exact Or.inr (Or.inr (Or.inr (Or.inr (Or.inr (Or.inr (Or.inr (Or.inr h)))))))
      · exact Or.inr (Or.inr (Or.inr (Or.inr (Or.inl h))))
    · rw [if_neg hf] at h
      exact absurd h (List.not_mem_nil c)

theorem urlparse_of_split {v : Chars} {sp : SplitR} (h : urlsplit? v = some sp)
    (hc : sp.path.contains ';' = false) :
    urlparse? v = some ⟨sp.scheme, sp.netloc, sp.path, [], sp.query, sp.fragment⟩ := by
  unfold urlparse?
  rw [h]
  simp only [Option.map_some']
  rw [if_neg]
  rintro ⟨_, hc2⟩
  rw [hc] at hc2
  simp at hc2

theorem normalize_url_parse (e : Bool) (u : Chars) (pr : ParseR)
    (hsemi : ';' ∉ u) (hp : urlparse? u = some pr) :
    pr.params = [] ∧
    WebAnalyzer.normalize_url_chars e u =
      urlunsplit (lowerC pr.scheme)
        (WebAnalyzer.normalize_netloc e (lowerC pr.netloc))
        (rstripSlash pr.path) pr.query pr.fragment ∧
    urlparse? (WebAnalyzer.normalize_url_chars e u) =
      some ⟨lowerC pr.scheme,
            WebAnalyzer.normalize_netloc e (lowerC pr.netloc),
            rstripSlash pr.path, [], pr.query, pr.fragment⟩ ∧
    ';' ∉ WebAnalyzer.normalize_url_chars e u := by
  have hp' := hp
  unfold urlparse? at hp'
  obtain ⟨sp, hsp, hg⟩ := Option.map_eq_some'.mp hp'
  have inv := urlsplit_inv hsp
  have hpathc : sp.path.contains ';' = false := by
    rw [← Bool.not_eq_true, contains_iff_mem]
    exact fun hx => hsemi (inv.mem_path ';' hx)
  have hcond : ¬(sp.scheme ∈ uses_params ∧ sp.path.contains ';' = true) := by
    rintro ⟨_, hx⟩
    rw [hpathc] at hx
    simp at hx
  dsimp only at hg
  rw [if_neg hcond] at hg
  subst hg
  dsimp only
  have hvu : WebAnalyzer.normalize_url_chars e u =
      urlunsplit (lowerC sp.scheme)
        (WebAnalyzer.normalize_netloc e (lowerC sp.netloc))
        (rstripSlash sp.path) sp.query sp.fragment := by
    unfold WebAnalyzer.normalize_url_chars
    rw [hp]
    dsimp only
    unfold urlunparse
    dsimp only
    rw [if_neg (show ¬(([] : Chars) ≠ []) from by simp)]
  have hs' : lowerC sp.scheme = [] ∨ (headIsAlpha (lowerC sp.scheme) = true ∧
      (lowerC sp.scheme).all schemeChar = true ∧
      lowerC (lowerC sp.scheme) = lowerC sp.scheme) := by
    rcases inv.scheme_ok with h | ⟨ha, hsc, hfix⟩
    · left
      rw [h]
      rfl
    · right
      rw [hfix]
      exact ⟨ha, hsc, hfix⟩
  have hn' : (WebAnalyzer.normalize_netloc e (lowerC sp.netloc)).all netlocChar
      = true := by
    rcases normalize_netloc_result e (lowerC sp.netloc) with h | h <;> rw [h]
    · exact all_netlocChar_lowerC inv.netloc_ok
    · rw [List.all_append, Bool.and_eq_true]
      exact ⟨by decide, all_netlocChar_lowerC inv.netloc_ok⟩
  have hbr' := brackets_normalize e sp.netloc inv.brackets
  have hph' : '#' ∉ rstripSlash sp.path := fun hx => inv.path_hash (rstrip_mem hx)
  have hpq' : '?' ∉ rstripSlash sp.path := fun hx => inv.path_quest (rstrip_mem hx)
  have hnp' : WebAnalyzer.normalize_netloc e (lowerC sp.netloc) ≠ [] →
      rstripSlash sp.path = [] ∨ (rstripSlash sp.path).take 1 = ['/'] := by
    intro hne
    have hnn : sp.netloc ≠ [] := by
      intro h0
      apply hne
      rw [h0]
      exact normalize_netloc_nil e
    rcases inv.shape with h | h | ⟨h0, _⟩
    · left
      rw [h]
      rfl
    · exact rstrip_take_one h
    · exact absurd h0 hnn
  have hsafe' : lowerC sp.scheme = [] →
      WebAnalyzer.normalize_netloc e (lowerC sp.netloc) = [] →
      pathSchemeSafe (rstripSlash sp.path) := by
    intro hs0 _
    apply pathSchemeSafe_rstrip
    rcases inv.shape with h | h | ⟨_, hsafe⟩
    · apply pathSchemeSafe_of_head
      rw [h]
      decide
    · exact pathSchemeSafe_of_take_one h
    · exact hsafe (List.map_eq_nil_iff.mp hs0)
  have hsplit_v := urlsplit_urlunsplit (lowerC sp.scheme)
    (WebAnalyzer.normalize_netloc e (lowerC sp.netloc)) (rstripSlash sp.path)
    sp.query sp.fragment hs' hn' hbr' hph' hpq' inv.query_hash hnp' hsafe'
  have hsemi_v : ';' ∉ WebAnalyzer.normalize_url_chars e u := by
    rw [hvu]
    intro hc
    rcases mem_urlunsplit hc with h | h | h | h | h | h | h | h | h
    · rw [mem_lowerC_nonletter (by decide)] at h
      obtain ⟨d, hdu, hdl⟩ := inv.mem_scheme ';' h
      rw [(toLower_eq_iff_nonletter (by decide)).mp hdl] at hdu
      exact hsemi hdu
    · rw [mem_normalize_netloc_iff e sp.netloc (by decide) (by decide)] at h
      exact hsemi (inv.mem_netloc ';' h)
    · exact hsemi (inv.mem_path ';' (rstrip_mem h))
    · exact hsemi (inv.mem_query ';' h)
    · exact hsemi (inv.mem_frag ';' h)
    · exact absurd h (by decide)
    · exact absurd h (by decide)
    · exact absurd h (by decide)
    · exact absurd h (by decide)
  refine ⟨rfl, hvu, ?_, hsemi_v⟩
  rw [hvu]
  refine urlparse_of_split hsplit_v ?_
  rw [← Bool.not_eq_true, contains_iff_mem]
  exact fun hx => hsemi (inv.mem_path ';' (rstrip_mem hx))

theorem normalize_chars_idem (e : Bool) (u : Chars) (hsemi : ';' ∉ u) :
    WebAnalyzer.normalize_url_chars e (WebAnalyzer.normalize_url_chars e u) =
      WebAnalyzer.normalize_url_chars e u := by
  cases hp : urlparse? u with
  | none =>
      have h1 : WebAnalyzer.normalize_url_chars e u = u := by
        unfold WebAnalyzer.normalize_url_chars
        rw [hp]
      rw [h1]
      exact h1
  | some pr =>
      obtain ⟨_, hvu, hvp, hvsemi⟩ := normalize_url_parse e u pr hsemi hp
      obtain ⟨_, hvu2, _, _⟩ := normalize_url_parse e
        (WebAnalyzer.normalize_url_chars e u) _ hvsemi hvp
      rw [hvu2]
      dsimp only
      rw [lowerC_idem, normalize_netloc_idem, rstrip_idem]
      exact hvu.symm

/-- C9 (amended): `normalize_url` is idempotent on every URL whose text
contains no `;` (on a URL with `;` the `_splitparams`/`rstrip("/")`
interaction can expose a new `;`-at-or-after-the-last-`/` on the second
pass, as the counterexample shows); re-parsing a normalised URL yields
the lowercased scheme, the lowercased-and-unified netloc, and the
slash-stripped path of the original parse; with unified-domain handling
enabled, a dotted host that is not `www`-prefixed, has no `.www.` inside
and is not an IP address maps to the same key `www.<host>` as its
`www`-prefixed form; a bare IP address is left unchanged. -/
theorem claim_C9_normalize_amended :
    (∀ (e : Bool) (u : Chars), ';' ∉ u →
      WebAnalyzer.normalize_url_chars e (WebAnalyzer.normalize_url_chars e u) =
        WebAnalyzer.normalize_url_chars e u) ∧
    (∀ (e : Bool) (u : Chars) (pr : ParseR), ';' ∉ u → urlparse? u = some pr →
      urlparse? (WebAnalyzer.normalize_url_chars e u) =
        some ⟨lowerC pr.scheme,
              WebAnalyzer.normalize_netloc e (lowerC pr.netloc),
              rstripSlash pr.path, [], pr.query, pr.fragment⟩) ∧
    (∀ h : Chars, h.contains '.' = true →
      startsWithC "www.".toList h = false →
      hasSubC ".www.".toList h = false →
      WebAnalyzer.is_ip_address h = false →
      WebAnalyzer.normalize_netloc true h = "www.".toList ++ h ∧
      WebAnalyzer.normalize_netloc true ("www.".toList ++ h) =
        "www.".toList ++ h) ∧
    (∀ h : Chars, WebAnalyzer.is_ip_address h = true →
      WebAnalyzer.normalize_netloc true h = h) :=
  ⟨normalize_chars_idem,
   fun e u pr hsemi hp => (normalize_url_parse e u pr hsemi hp).2.2.1,
   normalize_netloc_www,
   normalize_netloc_ip⟩

/-- C9 witness: the amended theorem applied at concrete inputs — a URL
with an uppercase host and a doubled trailing slash, a plain dotted
host, a parsed URL, and a bare IPv4 host. -/
theorem claim_C9_normalize_amended_witness :
    WebAnalyzer.normalize_url_chars true
        (WebAnalyzer.normalize_url_chars true "http://EX.com/a//".toList) =
      WebAnalyzer.normalize_url_chars true "http://EX.com/a//".toList ∧
    urlparse? (WebAnalyzer.normalize_url_chars true "http://EX.com/a//".toList) =
      some ⟨lowerC "http".toList,
            WebAnalyzer.normalize_netloc true (lowerC "EX.com".toList),
            rstripSlash "/a//".toList, [], [], []⟩ ∧
    WebAnalyzer.normalize_netloc true "example.com".toList =
      "www.example.com".toList ∧
    WebAnalyzer.normalize_netloc true "www.example.com".toList =
      "www.example.com".toList ∧
    WebAnalyzer.normalize_netloc true "10.0.0.1".toList = "10.0.0.1".toList := by
  refine ⟨claim_C9_normalize_amended.1 true "http://EX.com/a//".toList (by decide),
    claim_C9_normalize_amended.2.1 true "http://EX.com/a//".toList
      ⟨"http".toList, "EX.com".toList, "/a//".toList, [], [], []⟩
      (by decide) (by decide), ?_, ?_,
    claim_C9_normalize_amended.2.2.2 "10.0.0.1".toList (by decide)⟩
  · rw [(claim_C9_normalize_amended.2.2.1 "example.com".toList (by decide)
      (by decide) (by decide) (by decide)).1]
    decide
  · have h2 := (claim_C9_normalize_amended.2.2.1 "example.com".toList (by decide)
      (by decide) (by decide) (by decide)).2
    rw [show ("www.".toList ++ "example.com".toList : Chars) =
      "www.example.com".toList from by decide] at h2
    exact h2
